import Mathlib

/-!
# go_keys_manager: the key pool of `manager.go`

A shallow embedding of `src/manager.go` and the properties of its two request
handlers, `GetKey` (acquire a key) and `SetKey` (give a key back), of the
registry filled by `LoadKeys`, and of the start-up loop of `main` that seeds
the pool.

Modelling conventions.

* A Go `map[string]V` is an association list `GoMap V` in which every key
  occurs at most once (`GoMap.WF`).  The order of the list is the order in
  which a `range` statement visits the map; Go leaves that order unspecified,
  so statements quantify over all lists, and `Pool.Reorder` relates two lists
  that stand for the same Go map.
* `int64` values are `Int`; the handlers only compare and store them.
* `time.Now().UTC().Unix()` is the parameter `now` of a call.
* The HTTP layer is reduced to what the handlers decide: the key or
  "no content" for `GetKey`, status code and body text for `SetKey`.
-/

namespace KeysManager

/-! ## Go maps -/

/-- A Go `map[string]V`, as the list of its entries in iteration order. -/
abbrev GoMap (V : Type) := List (String × V)

namespace GoMap

variable {V : Type}

/-- The keys of a map, in iteration order. -/
def keys (m : GoMap V) : List String := m.map Prod.fst

/-- Every key occurs once: the list stands for a Go map. -/
def WF (m : GoMap V) : Prop := (m.map Prod.fst).Nodup

instance (m : GoMap V) : Decidable (WF m) := by unfold WF; infer_instance

/-- Map read, Go `v, ok := m[k]`. -/
def get : GoMap V → String → Option V
  | [], _ => none
  | (k, v) :: rest, key => if k = key then some v else get rest key

/-- Removal of a key, Go `delete(m, k)`. -/
def delete (m : GoMap V) (key : String) : GoMap V :=
  m.filter (fun e => decide (e.1 ≠ key))

/-- Map write, Go `m[k] = v`: any entry under `k` is replaced. -/
def set (m : GoMap V) (key : String) (v : V) : GoMap V :=
  (key, v) :: m.delete key

end GoMap

/-! ## Data types (manager.go 26-58) -/

/-- The struct `Key`. -/
structure Key where
  ConsumerKey : String
  ConsumerSecret : String
  AccessToken : String
  AccessTokenSecret : String
deriving DecidableEq, Repr

/-- The method `Key.Hash`: `fmt.Sprintf("%s::%s::%s::%s", ...)`. -/
def Key.Hash (key : Key) : String :=
  key.ConsumerKey ++ "::" ++ key.ConsumerSecret ++ "::" ++ key.AccessToken ++ "::" ++
    key.AccessTokenSecret

/-- No field of the key holds the character of the separator. -/
def Key.colonFree (k : Key) : Prop :=
  ':' ∉ k.ConsumerKey.toList ∧ ':' ∉ k.ConsumerSecret.toList ∧
    ':' ∉ k.AccessToken.toList ∧ ':' ∉ k.AccessTokenSecret.toList

instance (k : Key) : Decidable (Key.colonFree k) := by unfold Key.colonFree; infer_instance

/-- The type `KeyList`. -/
abbrev KeyList := List Key

/-- The struct `Limits`. -/
structure Limits where
  Remaining : Int
  Reset : Int
  Key : Key
deriving DecidableEq, Repr

/-- The global `default_bullets`. -/
def default_bullets : Int := 1

/-- The global `services`. -/
def services : List String :=
  ["search/tweets", "statuses/user_timeline", "statuses/lookup", "users/lookup",
   "followers/ids", "friends/ids"]

/-- The type of the global `limits`: service name to (consumer key to limits). -/
abbrev Pool := GoMap (GoMap Limits)

namespace Pool

/-- Outer and inner maps are Go maps. -/
def WF (limits : Pool) : Prop :=
  GoMap.WF limits ∧ ∀ e ∈ limits, GoMap.WF e.2

instance (limits : Pool) : Decidable (WF limits) := by unfold WF; infer_instance

/-- The entry read by `limits[service][ck]`. -/
def entry (limits : Pool) (service ck : String) : Option Limits :=
  match GoMap.get limits service with
  | none => none
  | some v => GoMap.get v ck

/-- A statement that changes the inner map `limits[service]` in place: the
outer map keeps its entries, the map stored under `service` becomes `f` of it. -/
def update (limits : Pool) (service : String) (f : GoMap Limits → GoMap Limits) : Pool :=
  limits.map (fun e => if e.1 = service then (e.1, f e.2) else e)

/-- The statement `delete(limits[service], ck)`. -/
def deleteIn (limits : Pool) (service ck : String) : Pool :=
  update limits service (fun v => GoMap.delete v ck)

/-- The statement `limits[service][ck] = l` where `limits[service]` exists. -/
def assignIn (limits : Pool) (service ck : String) (l : Limits) : Pool :=
  update limits service (fun v => GoMap.set v ck l)

/-- Two lists that stand for the same pool: the services are visited in another
order, and so are the entries of each service. -/
def Reorder (p q : Pool) : Prop :=
  ∃ r : Pool, List.Perm p r ∧ List.Forall₂ (fun a b => a.1 = b.1 ∧ List.Perm a.2 b.2) r q

/-- Every entry is stored under the consumer key of the key it holds. -/
def Keyed (limits : Pool) : Prop :=
  ∀ e ∈ limits, ∀ f ∈ e.2, f.2.Key.ConsumerKey = f.1

end Pool

/-! ## LoadKeys (manager.go 71-94) -/

/-- The loop of `LoadKeys` over the decoded list: `keys_hash[key.Hash()] = true`. -/
def LoadKeys (keys_pattern : KeyList) (keys_hash : GoMap Bool) : GoMap Bool :=
  keys_pattern.foldl (fun h key => GoMap.set h key.Hash true) keys_hash

/-- The global `keys_hash` after start-up: empty, then filled by `LoadKeys`. -/
def registry (keys : KeyList) : GoMap Bool := LoadKeys keys []

/-- The membership test `_, ok := keys_hash[key.Hash()]`. -/
def Contains (keys_hash : GoMap Bool) (key : Key) : Bool :=
  (GoMap.get keys_hash key.Hash).isSome

/-! ## GetKey (manager.go 99-129) -/

/-- The inner loop of `GetKey`: the first entry, in iteration order, that has
attempts left or whose refresh time has passed. -/
def GetKey.scan (now : Int) : GoMap Limits → Option (String × Limits)
  | [] => none
  | (ck, l) :: rest =>
    if l.Remaining > 0 ∨ now > l.Reset then some (ck, l) else GetKey.scan now rest

/-- The outer loop of `GetKey` over the entries still to visit. -/
def GetKey.loop (limits : Pool) (service : String) (now : Int) :
    List (String × GoMap Limits) → Option Key × Pool
  | [] => (none, limits)
  | (k, v) :: rest =>
    if k ≠ service then GetKey.loop limits service now rest
    else
      match GetKey.scan now v with
      | some (ck, l) => (some l.Key, Pool.deleteIn limits service ck)
      | none => GetKey.loop limits service now rest

/-- The handler `GetKey`: `some key` is the answer 200 with the key as JSON,
`none` is 204 No Content; the second component is `limits` afterwards. -/
def GetKey (limits : Pool) (service : String) (now : Int) : Option Key × Pool :=
  GetKey.loop limits service now limits

/-! ## SetKey (manager.go 134-185) -/

/-- Go `strconv.ParseUint` on a non-empty run of decimal digits. -/
def parseDigits : List Char → Nat → Option Nat
  | [], acc => some acc
  | c :: cs, acc =>
    if 48 ≤ c.toNat ∧ c.toNat ≤ 57 then parseDigits cs (acc * 10 + (c.toNat - 48)) else none

/-- Go `strconv.ParseInt(s, 10, 64)`: `some v` when `err == nil`, `none` for a
syntax or range error. -/
def ParseInt (s : String) : Option Int :=
  match s.toList with
  | [] => none
  | '-' :: ds =>
    if ds = [] then none
    else match parseDigits ds 0 with
      | some n => if n ≤ 2 ^ 63 then some (-(n : Int)) else none
      | none => none
  | '+' :: ds =>
    if ds = [] then none
    else match parseDigits ds 0 with
      | some n => if n < 2 ^ 63 then some (n : Int) else none
      | none => none
  | ds =>
    match parseDigits ds 0 with
    | some n => if n < 2 ^ 63 then some (n : Int) else none
    | none => none

/-- What `SetKey` writes to the client. -/
structure Response where
  status : Nat
  body : String
deriving DecidableEq, Repr

/-- The answer of the service loop: `http.StatusBadRequest`, nothing written. -/
def badService : Response := ⟨400, ""⟩

/-- The answer of the key check: `http.StatusBadRequest` and its message. -/
def badKey : Response := ⟨400, "Have no key inside keys dictionary"⟩

/-- The answer after the insert: `http.StatusOK`. -/
def statusOK : Response := ⟨200, ""⟩

/-- The loop `for _, s := range services` of `SetKey`: `true` when control
leaves the loop (by `break` or because the list is exhausted), `false` when the
body answers 400 and returns.  The body leaves on its first pass either way. -/
def SetKey.passes (service : String) : List String → Bool
  | [] => true
  | s :: _ => if s = service then true else false

/-- The handler `SetKey`.  `key` is the key assembled from the four form
values, `remaining` and `reset` are the form values of those names (empty when
the field is missing).  The result is `none` when the insert panics because
`limits[service]` is a nil map. -/
def SetKey (keys_hash : GoMap Bool) (limits : Pool) (service : String) (key : Key)
    (remaining reset : String) (now : Int) : Option (Response × Pool) :=
  if SetKey.passes service services = false then some (badService, limits)
  else if Contains keys_hash key = false then some (badKey, limits)
  else
    let remaining := match ParseInt remaining with
      | some v => v
      | none => 1
    let reset := match ParseInt reset with
      | some v => v
      | none => now
    match GoMap.get limits service with
    | none => none
    | some _ =>
      some (statusOK, Pool.assignIn limits service key.ConsumerKey ⟨remaining, reset, key⟩)

/-! ## Seeding in main (manager.go 227-233) -/

/-- The start-up loop of `main`: every service gets a fresh map with one entry
per loaded key. -/
def Seed (keys : KeyList) (now : Int) : Pool :=
  services.foldl
    (fun limits service =>
      keys.foldl
        (fun limits k =>
          Pool.assignIn limits service k.ConsumerKey ⟨default_bullets, now, k⟩)
        (GoMap.set limits service []))
    []

/-- The inner loop of the start-up loop, on the map of one service:
`limits[service][k.ConsumerKey] = Limits{default_bullets, now, k}` for every
loaded key. -/
def Seed.entries (now : Int) (keys : KeyList) (v : GoMap Limits) : GoMap Limits :=
  keys.foldl (fun v k => GoMap.set v k.ConsumerKey ⟨default_bullets, now, k⟩) v

/-- Every key held by the pool is in the registry. -/
def Pool.Registered (keys_hash : GoMap Bool) (limits : Pool) : Prop :=
  ∀ e ∈ limits, ∀ f ∈ e.2, Contains keys_hash f.2.Key = true

/-! ## Sample data -/

/-- A sample key. -/
def K1 : Key := ⟨"ck1", "cs1", "at1", "ats1"⟩

/-- A second sample key. -/
def K2 : Key := ⟨"ck2", "cs2", "at2", "ats2"⟩

/-- A key with a separator inside its first field. -/
def K3 : Key := ⟨"a::b", "c", "d", "e"⟩

/-- A key with a separator inside its second field. -/
def K4 : Key := ⟨"a", "b::c", "d", "e"⟩

/-- A sample pool: one service with a usable entry, an exhausted entry whose
refresh time is 1000, and a second service with one usable entry. -/
def samplePool : Pool :=
  [("search/tweets", [("ck1", ⟨0, 1000, K1⟩), ("ck2", ⟨3, 1000, K2⟩)]),
   ("users/lookup", [("ck1", ⟨1, 0, K1⟩)])]

/-- A sample pool whose only entry is exhausted until 1000. -/
def exhaustedPool : Pool := [("search/tweets", [("ck1", ⟨0, 1000, K1⟩)])]

/-! ## Runs of the server -/

/-- The pools the server can be in once `main` has loaded `keys` and seeded the
pool: any number of `GetKey` and `SetKey` requests, at any clock readings, and
any change of iteration order in between. -/
inductive Reachable (keys : KeyList) : Pool → Prop
  | seed (now : Int) : Reachable keys (Seed keys now)
  | getKey {limits : Pool} (service : String) (now : Int) :
      Reachable keys limits → Reachable keys (GetKey limits service now).2
  | setKey {limits limits' : Pool} (service : String) (key : Key) (remaining reset : String)
      (now : Int) (resp : Response) :
      Reachable keys limits →
      SetKey (registry keys) limits service key remaining reset now = some (resp, limits') →
      Reachable keys limits'
  | reorder {limits limits' : Pool} :
      Reachable keys limits → Pool.Reorder limits limits' → Reachable keys limits'

/-- The stretch of a run from one pool to a later one in which the entry stored
under the consumer key `ck` of the service `target` is left alone: no `SetKey`
for `ck` on `target` is answered 200, and no `GetKey` for `target` comes at a
clock reading after `t`. -/
inductive Undisturbed (keys_hash : GoMap Bool) (target ck : String) (t : Int) :
    Pool → Pool → Prop
  | refl (p : Pool) : Undisturbed keys_hash target ck t p p
  | getKey {p q : Pool} (service : String) (now : Int) :
      Undisturbed keys_hash target ck t p q → (service = target → now ≤ t) →
      Undisturbed keys_hash target ck t p (GetKey q service now).2
  | setKey {p q q' : Pool} (service : String) (key : Key) (remaining reset : String)
      (now : Int) (resp : Response) :
      Undisturbed keys_hash target ck t p q →
      SetKey keys_hash q service key remaining reset now = some (resp, q') →
      (resp.status = 200 → service = target → key.ConsumerKey ≠ ck) →
      Undisturbed keys_hash target ck t p q'
  | reorder {p q q' : Pool} :
      Undisturbed keys_hash target ck t p q → Pool.Reorder q q' →
      Undisturbed keys_hash target ck t p q'

/-- The stretch of a run from one pool to a later one in which the key of
consumer key `ck` is not given back for the service `target`: any `GetKey`
requests, for any service and at any clock readings, any change of iteration
order, and any `SetKey` requests except one for `ck` on `target` that is
answered 200. -/
inductive Leased (keys_hash : GoMap Bool) (target ck : String) : Pool → Pool → Prop
  | refl (p : Pool) : Leased keys_hash target ck p p
  | getKey {p q : Pool} (service : String) (now : Int) :
      Leased keys_hash target ck p q →
      Leased keys_hash target ck p (GetKey q service now).2
  | setKey {p q q' : Pool} (service : String) (key : Key) (remaining reset : String)
      (now : Int) (resp : Response) :
      Leased keys_hash target ck p q →
      SetKey keys_hash q service key remaining reset now = some (resp, q') →
      (resp.status = 200 → service = target → key.ConsumerKey ≠ ck) →
      Leased keys_hash target ck p q'
  | reorder {p q q' : Pool} :
      Leased keys_hash target ck p q → Pool.Reorder q q' →
      Leased keys_hash target ck p q'

/-! ## Lemmas on Go maps -/

namespace GoMap
variable {V : Type}

theorem mem_of_get_eq_some {m : GoMap V} {k : String} {v : V} (h : get m k = some v) :
    (k, v) ∈ m := by
  induction m with
  | nil => simp [get] at h
  | cons e rest ih =>
    obtain ⟨k0, v0⟩ := e
    by_cases hk : k0 = k
    · simp [get, hk] at h
      simp [hk, h]
    · simp [get, hk] at h
      exact List.mem_cons_of_mem _ (ih h)

theorem get_eq_none_iff {m : GoMap V} {k : String} :
    get m k = none ↔ ∀ e ∈ m, e.1 ≠ k := by
  induction m with
  | nil => simp [get]
  | cons e rest ih =>
    obtain ⟨k0, v0⟩ := e
    by_cases hk : k0 = k
    · simp [get, hk]
    · simp [get, hk, ih]

theorem get_eq_some_of_mem {m : GoMap V} (hwf : WF m) {k : String} {v : V}
    (hm : (k, v) ∈ m) : get m k = some v := by
  induction m with
  | nil => simp at hm
  | cons e rest ih =>
    obtain ⟨k0, v0⟩ := e
    have hnd : k0 ∉ rest.map Prod.fst ∧ WF rest := by
      simpa [WF, List.nodup_cons] using hwf
    rcases List.mem_cons.mp hm with heq | hrest
    · cases heq
      simp [get]
    · have hne : k0 ≠ k := by
        intro hk
        apply hnd.1
        rw [hk]
        exact List.mem_map_of_mem Prod.fst hrest
      simp [get, hne, ih hnd.2 hrest]

theorem get_eq_some_iff {m : GoMap V} (hwf : WF m) {k : String} {v : V} :
    get m k = some v ↔ (k, v) ∈ m :=
  ⟨mem_of_get_eq_some, get_eq_some_of_mem hwf⟩

theorem mem_delete {m : GoMap V} {key : String} {e : String × V} :
    e ∈ delete m key ↔ e ∈ m ∧ e.1 ≠ key := by
  simp [delete, List.mem_filter]

theorem WF_delete {m : GoMap V} (hwf : WF m) (key : String) : WF (delete m key) := by
  unfold WF delete at *
  exact (List.Nodup.sublist (List.Sublist.map _ (List.filter_sublist _)) hwf)

theorem get_delete_self (m : GoMap V) (key : String) : get (delete m key) key = none := by
  rw [get_eq_none_iff]
  intro e he
  exact (mem_delete.mp he).2

theorem delete_cons (k0 : String) (v0 : V) (rest : GoMap V) (key : String) :
    delete ((k0, v0) :: rest) key =
      if k0 = key then delete rest key else (k0, v0) :: delete rest key := by
  by_cases hk : k0 = key <;> simp [delete, List.filter_cons, hk]

theorem get_delete_ne (m : GoMap V) {key k : String} (h : k ≠ key) :
    get (delete m key) k = get m k := by
  induction m with
  | nil => simp [delete, get]
  | cons e rest ih =>
    obtain ⟨k0, v0⟩ := e
    rw [delete_cons]
    by_cases hk : k0 = key
    · have hk0 : k0 ≠ k := by rw [hk]; exact fun h' => h h'.symm
      rw [if_pos hk, ih]
      simp [get, hk0]
    · rw [if_neg hk]
      by_cases hk1 : k0 = k
      · simp [get, hk1]
      · simp [get, hk1, ih]

theorem mem_set {m : GoMap V} {key : String} {v : V} {e : String × V} :
    e ∈ set m key v ↔ e = (key, v) ∨ (e ∈ m ∧ e.1 ≠ key) := by
  simp [set, mem_delete]

theorem WF_set {m : GoMap V} (hwf : WF m) (key : String) (v : V) : WF (set m key v) := by
  have h1 : WF (delete m key) := WF_delete hwf key
  have h2 : key ∉ (delete m key).map Prod.fst := by
    intro hmem
    obtain ⟨e, he, hk⟩ := List.mem_map.mp hmem
    exact (mem_delete.mp he).2 hk
  unfold WF at *
  simpa [set, List.nodup_cons] using And.intro h2 h1

theorem get_set_self (m : GoMap V) (key : String) (v : V) : get (set m key v) key = some v := by
  simp [set, get]

theorem get_set_ne (m : GoMap V) {key k : String} (v : V) (h : k ≠ key) :
    get (set m key v) k = get m k := by
  have h' : key ≠ k := fun e => h e.symm
  simp [set, get, h', get_delete_ne m h]

theorem delete_eq_self {m : GoMap V} {k : String} (h : k ∉ m.map Prod.fst) :
    delete m k = m := by
  unfold delete
  rw [List.filter_eq_self]
  intro e he
  have hne : e.1 ≠ k := fun hk => h (hk ▸ List.mem_map_of_mem Prod.fst he)
  simpa using hne

theorem length_delete_of_mem {m : GoMap V} (hwf : WF m) {k : String} {v : V}
    (hm : (k, v) ∈ m) : (delete m k).length + 1 = m.length := by
  induction m with
  | nil => simp at hm
  | cons e rest ih =>
    obtain ⟨k0, v0⟩ := e
    have hnd : k0 ∉ rest.map Prod.fst ∧ WF rest := by
      simpa [WF, List.nodup_cons] using hwf
    rw [delete_cons]
    rcases List.mem_cons.mp hm with heq | hrest
    · cases heq
      rw [if_pos rfl, delete_eq_self hnd.1]
      simp
    · have hne : k0 ≠ k := by
        intro hk
        apply hnd.1
        rw [hk]
        exact List.mem_map_of_mem Prod.fst hrest
      rw [if_neg hne]
      simpa using ih hnd.2 hrest

end GoMap

/-! ## Lemmas on pools -/

namespace Pool

theorem update_cons (k0 : String) (v0 : GoMap Limits) (rest : Pool) (service : String)
    (f : GoMap Limits → GoMap Limits) :
    update ((k0, v0) :: rest) service f =
      (if k0 = service then (k0, f v0) else (k0, v0)) :: update rest service f := rfl

theorem get_update (limits : Pool) (service : String) (f : GoMap Limits → GoMap Limits)
    (s : String) :
    GoMap.get (update limits service f) s =
      if s = service then (GoMap.get limits service).map f else GoMap.get limits s := by
  induction limits with
  | nil => simp [update, GoMap.get]
  | cons e rest ih =>
    obtain ⟨k0, v0⟩ := e
    rw [update_cons]
    by_cases hk : k0 = service
    · rw [if_pos hk]
      by_cases hs : s = service
      · simp [GoMap.get, hk, hs]
      · have hs' : k0 ≠ s := by rw [hk]; exact fun h => hs h.symm
        simp only [GoMap.get, if_neg hs', ih, if_neg hs]
    · rw [if_neg hk]
      by_cases hs : s = service
      · have hk' : k0 ≠ s := by rw [hs]; exact hk
        simp only [GoMap.get, if_neg hk', ih, if_pos hs, if_neg hk]
      · by_cases hks : k0 = s
        · simp only [GoMap.get, if_pos hks, if_neg hs]
        · simp only [GoMap.get, if_neg hks, ih, if_neg hs]

theorem keys_update (limits : Pool) (service : String) (f : GoMap Limits → GoMap Limits) :
    (update limits service f).map Prod.fst = limits.map Prod.fst := by
  unfold update
  rw [List.map_map]
  apply List.map_congr_left
  intro e _
  by_cases hk : e.1 = service <;> simp [hk]

theorem mem_update {limits : Pool} {service : String} {f : GoMap Limits → GoMap Limits}
    {e : String × GoMap Limits} :
    e ∈ update limits service f ↔
      ∃ e0 ∈ limits, e.1 = e0.1 ∧ e.2 = if e0.1 = service then f e0.2 else e0.2 := by
  unfold update
  rw [List.mem_map]
  constructor
  · rintro ⟨e0, h0, rfl⟩
    refine ⟨e0, h0, ?_⟩
    by_cases hk : e0.1 = service <;> simp [hk]
  · rintro ⟨e0, h0, h1, h2⟩
    refine ⟨e0, h0, ?_⟩
    by_cases hk : e0.1 = service
    · simp only [hk, if_true] at h2 ⊢
      exact Prod.ext (by rw [h1, hk]) h2.symm
    · simp only [hk, if_false] at h2 ⊢
      exact Prod.ext h1.symm h2.symm

theorem WF_update {limits : Pool} (hwf : WF limits) (service : String)
    {f : GoMap Limits → GoMap Limits} (hf : ∀ v, GoMap.WF v → GoMap.WF (f v)) :
    WF (update limits service f) := by
  refine ⟨?_, ?_⟩
  · unfold GoMap.WF
    rw [keys_update]
    exact hwf.1
  · intro e he
    obtain ⟨e0, h0, _, h2⟩ := mem_update.mp he
    rw [h2]
    by_cases hk : e0.1 = service
    · simpa [hk] using hf _ (hwf.2 e0 h0)
    · simpa [hk] using hwf.2 e0 h0

theorem entry_update_self (limits : Pool) (service : String)
    (f : GoMap Limits → GoMap Limits) (ck : String) :
    entry (update limits service f) service ck =
      match GoMap.get limits service with
      | none => none
      | some v => GoMap.get (f v) ck := by
  unfold entry
  rw [get_update, if_pos rfl]
  cases GoMap.get limits service <;> rfl

theorem entry_update_ne (limits : Pool) {service s : String}
    (f : GoMap Limits → GoMap Limits) (ck : String) (h : s ≠ service) :
    entry (update limits service f) s ck = entry limits s ck := by
  unfold entry
  rw [get_update, if_neg h]

theorem entry_eq_some_iff {limits : Pool} (hwf : WF limits) {service ck : String}
    {l : Limits} :
    entry limits service ck = some l ↔ ∃ v, (service, v) ∈ limits ∧ (ck, l) ∈ v := by
  unfold entry
  constructor
  · intro h
    cases hg : GoMap.get limits service with
    | none => simp [hg] at h
    | some v =>
      rw [hg] at h
      exact ⟨v, GoMap.mem_of_get_eq_some hg, GoMap.mem_of_get_eq_some h⟩
  · rintro ⟨v, hv, hl⟩
    rw [GoMap.get_eq_some_of_mem hwf.1 hv]
    exact GoMap.get_eq_some_of_mem (hwf.2 _ hv) hl

end Pool

/-! ## Lemmas on GetKey -/

theorem GetKey.scan_eq_some {now : Int} {v : GoMap Limits} {ck : String} {l : Limits}
    (h : GetKey.scan now v = some (ck, l)) :
    (ck, l) ∈ v ∧ (l.Remaining > 0 ∨ now > l.Reset) := by
  induction v with
  | nil => simp [GetKey.scan] at h
  | cons e rest ih =>
    obtain ⟨ck0, l0⟩ := e
    by_cases he : l0.Remaining > 0 ∨ now > l0.Reset
    · rw [GetKey.scan, if_pos he] at h
      cases h
      exact ⟨List.mem_cons_self _ _, he⟩
    · rw [GetKey.scan, if_neg he] at h
      exact ⟨List.mem_cons_of_mem _ (ih h).1, (ih h).2⟩

theorem GetKey.scan_eq_none_iff {now : Int} {v : GoMap Limits} :
    GetKey.scan now v = none ↔ ∀ e ∈ v, ¬ (e.2.Remaining > 0 ∨ now > e.2.Reset) := by
  induction v with
  | nil => simp [GetKey.scan]
  | cons e rest ih =>
    obtain ⟨ck0, l0⟩ := e
    by_cases he : l0.Remaining > 0 ∨ now > l0.Reset
    · rw [GetKey.scan, if_pos he]
      simp only [List.mem_cons, forall_eq_or_imp, false_iff, not_and, reduceCtorEq]
      intro h
      exact absurd he h
    · rw [GetKey.scan, if_neg he, ih]
      simp only [List.mem_cons, forall_eq_or_imp]
      exact ⟨fun h => ⟨he, h⟩, fun h => h.2⟩

/-- The two ways the outer loop can end. -/
theorem GetKey.loop_cases (limits : Pool) (service : String) (now : Int)
    (rest : List (String × GoMap Limits)) :
    (GetKey.loop limits service now rest = (none, limits) ∧
        ∀ v, (service, v) ∈ rest → GetKey.scan now v = none) ∨
      ∃ v ck l, (service, v) ∈ rest ∧ GetKey.scan now v = some (ck, l) ∧
        GetKey.loop limits service now rest = (some l.Key, Pool.deleteIn limits service ck) := by
  induction rest with
  | nil => left; simp [GetKey.loop]
  | cons e rest ih =>
    obtain ⟨k, v⟩ := e
    by_cases hk : k = service
    · subst hk
      cases hs : GetKey.scan now v with
      | none =>
        rcases ih with ⟨h1, h2⟩ | ⟨v', ck, l, h1, h2, h3⟩
        · left
          refine ⟨by simp [GetKey.loop, hs, h1], ?_⟩
          intro v' hv'
          rcases List.mem_cons.mp hv' with heq | hr
          · cases heq; exact hs
          · exact h2 v' hr
        · right
          exact ⟨v', ck, l, List.mem_cons_of_mem _ h1, h2, by simp [GetKey.loop, hs, h3]⟩
      | some r =>
        obtain ⟨ck, l⟩ := r
        right
        exact ⟨v, ck, l, List.mem_cons_self _ _, hs, by simp [GetKey.loop, hs]⟩
    · rcases ih with ⟨h1, h2⟩ | ⟨v', ck, l, h1, h2, h3⟩
      · left
        refine ⟨by simp [GetKey.loop, hk, h1], ?_⟩
        intro v' hv'
        rcases List.mem_cons.mp hv' with heq | hr
        · cases heq; exact absurd rfl hk
        · exact h2 v' hr
      · right
        exact ⟨v', ck, l, List.mem_cons_of_mem _ h1, h2, by simp [GetKey.loop, hk, h3]⟩


/-! ## Lemmas on SetKey -/

theorem ParseInt_range {s : String} {v : Int} (h : ParseInt s = some v) :
    -(2 : Int) ^ 63 ≤ v ∧ v < (2 : Int) ^ 63 := by
  unfold ParseInt at h
  split at h
  · simp at h
  · split at h
    · simp at h
    · split at h
      · split at h
        · cases h
          constructor <;> omega
        · simp at h
      · simp at h
  · split at h
    · simp at h
    · split at h
      · split at h
        · cases h
          constructor <;> omega
        · simp at h
      · simp at h
  · split at h
    · split at h
      · cases h
        constructor <;> omega
      · simp at h
    · simp at h

theorem SetKey.passes_services (service : String) :
    SetKey.passes service services = true ↔ service = "search/tweets" := by
  simp only [SetKey.passes, services]
  by_cases h : "search/tweets" = service
  · simp [h]
  · simp only [if_neg h, Bool.false_eq_true, false_iff]
    exact fun h' => h h'.symm

theorem SetKey.not_passes_of_not_mem {service : String} (h : service ∉ services) :
    SetKey.passes service services = false := by
  cases hp : SetKey.passes service services with
  | false => rfl
  | true =>
    exfalso
    apply h
    rw [(SetKey.passes_services service).mp hp]
    decide

theorem SetKey.of_not_passes (keys_hash : GoMap Bool) (limits : Pool) {service : String}
    (key : Key) (remaining reset : String) (now : Int)
    (h : SetKey.passes service services = false) :
    SetKey keys_hash limits service key remaining reset now = some (badService, limits) := by
  simp [SetKey, h]

theorem SetKey.of_not_contains {keys_hash : GoMap Bool} (limits : Pool) {service : String}
    {key : Key} (remaining reset : String) (now : Int)
    (hp : SetKey.passes service services = true) (hc : Contains keys_hash key = false) :
    SetKey keys_hash limits service key remaining reset now = some (badKey, limits) := by
  simp [SetKey, hp, hc]

/-- What an answer 200 of `SetKey` tells: both checks passed, the service has
a map, and the pool afterwards is the pool with the new entry assigned. -/
theorem SetKey.of_ok {keys_hash : GoMap Bool} {limits limits' : Pool} {service : String}
    {key : Key} {remaining reset : String} {now : Int} {resp : Response}
    (h : SetKey keys_hash limits service key remaining reset now = some (resp, limits'))
    (hok : resp.status = 200) :
    SetKey.passes service services = true ∧ Contains keys_hash key = true ∧
      (∃ v, GoMap.get limits service = some v) ∧
      limits' = Pool.assignIn limits service key.ConsumerKey
        ⟨(match ParseInt remaining with
          | some v => v
          | none => 1),
         (match ParseInt reset with
          | some v => v
          | none => now), key⟩ := by
  unfold SetKey at h
  by_cases hp : SetKey.passes service services = false
  · rw [if_pos hp] at h
    cases h
    simp [badService] at hok
  · rw [if_neg hp] at h
    by_cases hc : Contains keys_hash key = false
    · rw [if_pos hc] at h
      cases h
      simp [badKey] at hok
    · rw [if_neg hc] at h
      cases hg : GoMap.get limits service with
      | none => simp [hg] at h
      | some v =>
        simp only [hg, Option.some.injEq, Prod.mk.injEq] at h
        refine ⟨by simpa using hp, by simpa using hc, ⟨v, rfl⟩, h.2.symm⟩

theorem SetKey.unchanged_of_not_ok {keys_hash : GoMap Bool} {limits limits' : Pool}
    {service : String} {key : Key} {remaining reset : String} {now : Int} {resp : Response}
    (h : SetKey keys_hash limits service key remaining reset now = some (resp, limits'))
    (hok : resp.status ≠ 200) : limits' = limits := by
  unfold SetKey at h
  by_cases hp : SetKey.passes service services = false
  · rw [if_pos hp] at h
    cases h
    rfl
  · rw [if_neg hp] at h
    by_cases hc : Contains keys_hash key = false
    · rw [if_pos hc] at h
      cases h
      rfl
    · rw [if_neg hc] at h
      cases hg : GoMap.get limits service with
      | none => simp [hg] at h
      | some v =>
        simp only [hg, Option.some.injEq, Prod.mk.injEq] at h
        exact absurd (by rw [← h.1]; rfl) hok

theorem Pool.entry_assignIn_self {limits : Pool} {service : String} {v : GoMap Limits}
    (hg : GoMap.get limits service = some v) (ck : String) (l : Limits) :
    Pool.entry (Pool.assignIn limits service ck l) service ck = some l := by
  unfold Pool.assignIn
  rw [Pool.entry_update_self, hg]
  exact GoMap.get_set_self v ck l

/-! ## Lemmas on the registry -/

theorem append_colon_inj {a c b d : List Char} (ha : ':' ∉ a) (hc : ':' ∉ c)
    (h : a ++ ':' :: b = c ++ ':' :: d) : a = c ∧ b = d := by
  induction a generalizing c with
  | nil =>
    cases c with
    | nil => exact ⟨rfl, by simpa using h⟩
    | cons x c' =>
      exfalso
      simp only [List.nil_append, List.cons_append, List.cons.injEq] at h
      exact hc (h.1 ▸ List.mem_cons_self _ _)
  | cons y a' ih =>
    cases c with
    | nil =>
      exfalso
      simp only [List.nil_append, List.cons_append, List.cons.injEq] at h
      exact ha (h.1 ▸ List.mem_cons_self _ _)
    | cons x c' =>
      simp only [List.cons_append, List.cons.injEq] at h
      have ha' : ':' ∉ a' := fun hm => ha (List.mem_cons_of_mem _ hm)
      have hc' : ':' ∉ c' := fun hm => hc (List.mem_cons_of_mem _ hm)
      obtain ⟨h1, h2⟩ := ih ha' hc' h.2
      exact ⟨by rw [h.1, h1], h2⟩

theorem Key.Hash_data (k : Key) :
    k.Hash.data =
      k.ConsumerKey.data ++ ':' :: ':' :: (k.ConsumerSecret.data ++ ':' :: ':' ::
        (k.AccessToken.data ++ ':' :: ':' :: k.AccessTokenSecret.data)) := by
  simp [Key.Hash, String.data_append]

/-- The hash tells apart keys whose first three fields are free of colons. -/
theorem Key.Hash_inj {a b : Key}
    (ha : ':' ∉ a.ConsumerKey.toList ∧ ':' ∉ a.ConsumerSecret.toList ∧
      ':' ∉ a.AccessToken.toList)
    (hb : ':' ∉ b.ConsumerKey.toList ∧ ':' ∉ b.ConsumerSecret.toList ∧
      ':' ∉ b.AccessToken.toList)
    (h : a.Hash = b.Hash) : a = b := by
  have hd : a.Hash.data = b.Hash.data := by rw [h]
  rw [Key.Hash_data, Key.Hash_data] at hd
  obtain ⟨h1, hd⟩ := append_colon_inj ha.1 hb.1 hd
  simp only [List.cons.injEq, true_and] at hd
  obtain ⟨h2, hd⟩ := append_colon_inj ha.2.1 hb.2.1 hd
  simp only [List.cons.injEq, true_and] at hd
  obtain ⟨h3, h4⟩ := append_colon_inj ha.2.2 hb.2.2 hd
  obtain ⟨a1, a2, a3, a4⟩ := a
  obtain ⟨b1, b2, b3, b4⟩ := b
  simp only at h1 h2 h3 h4
  simp only [Key.mk.injEq]
  exact ⟨String.ext h1, String.ext h2, String.ext h3, String.ext (List.cons.inj h4).2⟩

theorem get_LoadKeys_isSome (keys : KeyList) (h0 : GoMap Bool) (x : String) :
    (GoMap.get (LoadKeys keys h0) x).isSome = true ↔
      (GoMap.get h0 x).isSome = true ∨ ∃ k ∈ keys, k.Hash = x := by
  induction keys generalizing h0 with
  | nil => simp [LoadKeys]
  | cons k rest ih =>
    have hstep : LoadKeys (k :: rest) h0 = LoadKeys rest (GoMap.set h0 k.Hash true) := rfl
    rw [hstep, ih]
    by_cases hx : x = k.Hash
    · subst hx
      simp [GoMap.get_set_self]
    · rw [GoMap.get_set_ne h0 true hx]
      have hx' : k.Hash ≠ x := fun e => hx e.symm
      simp [hx']

theorem Contains_registry_iff (keys : KeyList) (c : Key) :
    Contains (registry keys) c = true ↔ ∃ k ∈ keys, k.Hash = c.Hash := by
  unfold Contains registry
  rw [get_LoadKeys_isSome]
  simp [GoMap.get]

/-! ## Lemmas on reachable pools -/

namespace Pool

theorem Reorder.refl (p : Pool) : Reorder p p :=
  ⟨p, List.Perm.refl p, List.forall₂_same.mpr (fun _ _ => ⟨rfl, List.Perm.refl _⟩)⟩

theorem Keyed_update {limits : Pool} (hk : Keyed limits) (service : String)
    {g : GoMap Limits → GoMap Limits}
    (hg : ∀ v : GoMap Limits, (∀ f ∈ v, f.2.Key.ConsumerKey = f.1) →
      ∀ f ∈ g v, f.2.Key.ConsumerKey = f.1) :
    Keyed (update limits service g) := by
  intro e he
  obtain ⟨e0, h0, _, h2⟩ := mem_update.mp he
  rw [h2]
  by_cases hs : e0.1 = service
  · simpa [hs] using hg _ (hk e0 h0)
  · simpa [hs] using hk e0 h0

theorem Keyed_deleteIn {limits : Pool} (hk : Keyed limits) (service ck : String) :
    Keyed (deleteIn limits service ck) :=
  Keyed_update hk service (fun _ hv f hf => hv f (GoMap.mem_delete.mp hf).1)

theorem Keyed_assignIn {limits : Pool} (hk : Keyed limits) (service : String) (l : Limits) :
    Keyed (assignIn limits service l.Key.ConsumerKey l) :=
  Keyed_update hk service (fun _ hv f hf => by
    rcases GoMap.mem_set.mp hf with h | h
    · rw [h]
    · exact hv f h.1)

theorem WF_deleteIn {limits : Pool} (hwf : WF limits) (service ck : String) :
    WF (deleteIn limits service ck) :=
  WF_update hwf service (fun _ hv => GoMap.WF_delete hv ck)

theorem WF_assignIn {limits : Pool} (hwf : WF limits) (service ck : String) (l : Limits) :
    WF (assignIn limits service ck l) :=
  WF_update hwf service (fun _ hv => GoMap.WF_set hv ck l)

theorem WF_set_nil {limits : Pool} (hwf : WF limits) (service : String) :
    WF (GoMap.set limits service []) := by
  refine ⟨GoMap.WF_set hwf.1 service [], ?_⟩
  intro e he
  rcases GoMap.mem_set.mp he with h | h
  · rw [h]
    exact List.nodup_nil
  · exact hwf.2 e h.1

theorem Keyed_set_nil {limits : Pool} (hk : Keyed limits) (service : String) :
    Keyed (GoMap.set limits service []) := by
  intro e he
  rcases GoMap.mem_set.mp he with h | h
  · rw [h]
    intro f hf
    simp at hf
  · exact hk e h.1

theorem exists_of_forall₂_right {R : String × GoMap Limits → String × GoMap Limits → Prop}
    {r q : Pool} (h : List.Forall₂ R r q) {b : String × GoMap Limits} (hb : b ∈ q) :
    ∃ a ∈ r, R a b := by
  induction h with
  | nil => simp at hb
  | cons hab _ ih =>
    rcases List.mem_cons.mp hb with heq | hrest
    · exact ⟨_, List.mem_cons_self _ _, heq ▸ hab⟩
    · obtain ⟨a, ha, hR⟩ := ih hrest
      exact ⟨a, List.mem_cons_of_mem _ ha, hR⟩

theorem keys_eq_of_forall₂ {r q : Pool}
    (h : List.Forall₂ (fun a b => a.1 = b.1 ∧ List.Perm a.2 b.2) r q) :
    r.map Prod.fst = q.map Prod.fst := by
  induction h with
  | nil => rfl
  | cons hab _ ih => simp [hab.1, ih]

/-- An entry of a reordered pool is an entry of the pool, up to the order of
its inner map. -/
theorem Reorder.exists_mem {p q : Pool} (h : Reorder p q) {b : String × GoMap Limits}
    (hb : b ∈ q) : ∃ a ∈ p, a.1 = b.1 ∧ List.Perm a.2 b.2 := by
  obtain ⟨r, hpr, hrq⟩ := h
  obtain ⟨a, ha, hR⟩ := exists_of_forall₂_right hrq hb
  exact ⟨a, hpr.mem_iff.mpr ha, hR⟩

theorem WF_reorder {p q : Pool} (hwf : WF p) (h : Reorder p q) : WF q := by
  refine ⟨?_, ?_⟩
  · obtain ⟨r, hpr, hrq⟩ := h
    unfold GoMap.WF
    rw [← keys_eq_of_forall₂ hrq]
    exact (List.Perm.nodup_iff (hpr.map Prod.fst)).mp hwf.1
  · intro b hb
    obtain ⟨a, ha, _, hperm⟩ := h.exists_mem hb
    exact (List.Perm.nodup_iff (hperm.map Prod.fst)).mp (hwf.2 a ha)

theorem Keyed_reorder {p q : Pool} (hk : Keyed p) (h : Reorder p q) : Keyed q := by
  intro b hb f hf
  obtain ⟨a, ha, _, hperm⟩ := h.exists_mem hb
  exact hk a ha f (hperm.mem_iff.mpr hf)

end Pool

theorem GetKey.getKey_pool_cases (limits : Pool) (service : String) (now : Int) :
    (GetKey limits service now).2 = limits ∨
      ∃ ck, (GetKey limits service now).2 = Pool.deleteIn limits service ck := by
  unfold GetKey
  rcases GetKey.loop_cases limits service now limits with ⟨h1, _⟩ | ⟨_, ck, _, _, _, h3⟩
  · left; rw [h1]
  · right; exact ⟨ck, by rw [h3]⟩

theorem SetKey.setKey_pool_cases {keys_hash : GoMap Bool} {limits limits' : Pool} {service : String}
    {key : Key} {remaining reset : String} {now : Int} {resp : Response}
    (h : SetKey keys_hash limits service key remaining reset now = some (resp, limits')) :
    limits' = limits ∨
      ∃ l : Limits, l.Key = key ∧ Contains keys_hash key = true ∧
        limits' = Pool.assignIn limits service l.Key.ConsumerKey l := by
  by_cases hok : resp.status = 200
  · right
    obtain ⟨_, hc, _, hl⟩ := SetKey.of_ok h hok
    exact ⟨⟨(match ParseInt remaining with
      | some v => v
      | none => 1), (match ParseInt reset with
      | some v => v
      | none => now), key⟩, rfl, hc, hl⟩
  · left
    exact SetKey.unchanged_of_not_ok h hok

theorem Seed.fill_inv (service : String) (now : Int) (keys : KeyList) (limits : Pool)
    (h : Pool.WF limits ∧ Pool.Keyed limits) :
    Pool.WF (keys.foldl (fun limits k =>
        Pool.assignIn limits service k.ConsumerKey ⟨default_bullets, now, k⟩) limits) ∧
      Pool.Keyed (keys.foldl (fun limits k =>
        Pool.assignIn limits service k.ConsumerKey ⟨default_bullets, now, k⟩) limits) := by
  induction keys generalizing limits with
  | nil => exact h
  | cons k rest ih =>
    rw [List.foldl_cons]
    exact ih _ ⟨Pool.WF_assignIn h.1 _ _ _,
      Pool.Keyed_assignIn h.2 service ⟨default_bullets, now, k⟩⟩

theorem Seed.loop_inv (keys : KeyList) (now : Int) (svcs : List String) (limits : Pool)
    (h : Pool.WF limits ∧ Pool.Keyed limits) :
    Pool.WF (svcs.foldl (fun limits service =>
        keys.foldl (fun limits k =>
          Pool.assignIn limits service k.ConsumerKey ⟨default_bullets, now, k⟩)
          (GoMap.set limits service [])) limits) ∧
      Pool.Keyed (svcs.foldl (fun limits service =>
        keys.foldl (fun limits k =>
          Pool.assignIn limits service k.ConsumerKey ⟨default_bullets, now, k⟩)
          (GoMap.set limits service [])) limits) := by
  induction svcs generalizing limits with
  | nil => exact h
  | cons s rest ih =>
    rw [List.foldl_cons]
    exact ih _ (Seed.fill_inv s now keys _ ⟨Pool.WF_set_nil h.1 s, Pool.Keyed_set_nil h.2 s⟩)

/-- Every pool of a run is a pool of Go maps keyed by consumer keys. -/
theorem Reachable.inv {keys : KeyList} {limits : Pool} (h : Reachable keys limits) :
    Pool.WF limits ∧ Pool.Keyed limits := by
  induction h with
  | seed now =>
    refine Seed.loop_inv keys now services [] ⟨⟨List.nodup_nil, ?_⟩, ?_⟩
    · intro e he; simp at he
    · intro e he; simp at he
  | getKey service now _ ih =>
    rcases GetKey.getKey_pool_cases _ service now with h | ⟨ck, h⟩
    · rw [h]; exact ih
    · rw [h]; exact ⟨Pool.WF_deleteIn ih.1 _ _, Pool.Keyed_deleteIn ih.2 _ _⟩
  | setKey service key remaining reset now resp _ hs ih =>
    rcases SetKey.setKey_pool_cases hs with h | ⟨l, _, _, h⟩
    · rw [h]; exact ih
    · rw [h]; exact ⟨Pool.WF_assignIn ih.1 _ _ _, Pool.Keyed_assignIn ih.2 _ _⟩
  | reorder _ hre ih => exact ⟨Pool.WF_reorder ih.1 hre, Pool.Keyed_reorder ih.2 hre⟩

/-! ## Lemmas on the seeded pool -/

namespace Pool

theorem update_id_of_forall (limits : Pool) (service : String)
    (f : GoMap Limits → GoMap Limits) (h : ∀ e ∈ limits, e.1 = service → f e.2 = e.2) :
    update limits service f = limits := by
  unfold update
  conv_rhs => rw [← List.map_id limits]
  apply List.map_congr_left
  intro e he
  by_cases hs : e.1 = service
  · rw [if_pos hs, h e he hs]
    rfl
  · rw [if_neg hs]
    rfl

theorem update_update (limits : Pool) (service : String)
    (f g : GoMap Limits → GoMap Limits) :
    update (update limits service f) service g = update limits service (fun v => g (f v)) := by
  unfold update
  rw [List.map_map]
  apply List.map_congr_left
  intro e _
  by_cases hs : e.1 = service
  · simp [hs]
  · simp [hs]

end Pool

theorem Seed.fill_eq_update (service : String) (now : Int) (keys : KeyList) (limits : Pool) :
    keys.foldl (fun limits k =>
        Pool.assignIn limits service k.ConsumerKey ⟨default_bullets, now, k⟩) limits =
      Pool.update limits service (Seed.entries now keys) := by
  induction keys generalizing limits with
  | nil =>
    rw [List.foldl_nil]
    exact (Pool.update_id_of_forall limits service _ (fun _ _ _ => rfl)).symm
  | cons k rest ih =>
    rw [List.foldl_cons, ih]
    unfold Pool.assignIn
    rw [Pool.update_update]
    rfl

theorem Seed.step_eq_set (service : String) (now : Int) (keys : KeyList) (limits : Pool) :
    keys.foldl (fun limits k =>
        Pool.assignIn limits service k.ConsumerKey ⟨default_bullets, now, k⟩)
        (GoMap.set limits service []) =
      GoMap.set limits service (Seed.entries now keys []) := by
  rw [Seed.fill_eq_update]
  unfold GoMap.set
  rw [Pool.update_cons, if_pos rfl]
  congr 1
  apply Pool.update_id_of_forall
  intro e he hs
  exact absurd hs (GoMap.mem_delete.mp he).2

theorem Seed.eq_foldl_set (keys : KeyList) (now : Int) :
    Seed keys now =
      services.foldl (fun limits service =>
        GoMap.set limits service (Seed.entries now keys [])) [] := by
  unfold Seed
  congr 1
  funext limits service
  exact Seed.step_eq_set service now keys limits

theorem GoMap.get_foldl_set {V : Type} (c : V) (svcs : List String) (m : GoMap V)
    (s : String) :
    GoMap.get (svcs.foldl (fun m x => GoMap.set m x c) m) s =
      if s ∈ svcs then some c else GoMap.get m s := by
  induction svcs generalizing m with
  | nil => simp
  | cons x rest ih =>
    rw [List.foldl_cons, ih]
    by_cases hr : s ∈ rest
    · simp [hr]
    · by_cases hx : s = x
      · subst hx
        simp [hr, GoMap.get_set_self]
      · have : s ∉ x :: rest := by simp [hx, hr]
        rw [if_neg hr, if_neg this, GoMap.get_set_ne m c hx]

/-- The map a seeded pool holds for a service name. -/
theorem Seed.get (keys : KeyList) (now : Int) (s : String) :
    GoMap.get (Seed keys now) s =
      if s ∈ services then some (Seed.entries now keys []) else none := by
  rw [Seed.eq_foldl_set, GoMap.get_foldl_set]
  rfl

theorem Seed.entries_mem {now : Int} {keys : KeyList} {v : GoMap Limits}
    {f : String × Limits} (h : f ∈ Seed.entries now keys v) :
    f ∈ v ∨ ∃ k ∈ keys, f = (k.ConsumerKey, ⟨default_bullets, now, k⟩) := by
  induction keys generalizing v with
  | nil => exact Or.inl h
  | cons k rest ih =>
    have h' : f ∈ Seed.entries now rest (GoMap.set v k.ConsumerKey ⟨default_bullets, now, k⟩) := h
    rcases ih h' with h1 | ⟨k', hk', hf⟩
    · rcases GoMap.mem_set.mp h1 with h2 | h2
      · exact Or.inr ⟨k, List.mem_cons_self _ _, h2⟩
      · exact Or.inl h2.1
    · exact Or.inr ⟨k', List.mem_cons_of_mem _ hk', hf⟩

theorem Seed.entries_WF {now : Int} {keys : KeyList} {v : GoMap Limits} (h : GoMap.WF v) :
    GoMap.WF (Seed.entries now keys v) := by
  induction keys generalizing v with
  | nil => exact h
  | cons k rest ih => exact ih (GoMap.WF_set h _ _)

theorem Seed.entries_get_of_not_mem {now : Int} {keys : KeyList} {v : GoMap Limits}
    {ck : String} (h : ck ∉ keys.map Key.ConsumerKey) :
    GoMap.get (Seed.entries now keys v) ck = GoMap.get v ck := by
  induction keys generalizing v with
  | nil => rfl
  | cons k rest ih =>
    have hne : ck ≠ k.ConsumerKey := fun e => h (by simp [e])
    have hr : ck ∉ rest.map Key.ConsumerKey := fun e => h (by simp at e ⊢; exact Or.inr e)
    have : Seed.entries now (k :: rest) v =
      Seed.entries now rest (GoMap.set v k.ConsumerKey ⟨default_bullets, now, k⟩) := rfl
    rw [this, ih hr, GoMap.get_set_ne v _ hne]

theorem Seed.entries_get_of_mem {now : Int} {keys : KeyList} {v : GoMap Limits}
    (hnd : (keys.map Key.ConsumerKey).Nodup) {c : Key} (hc : c ∈ keys) :
    GoMap.get (Seed.entries now keys v) c.ConsumerKey = some ⟨default_bullets, now, c⟩ := by
  induction keys generalizing v with
  | nil => simp at hc
  | cons k rest ih =>
    have hnd' : k.ConsumerKey ∉ rest.map Key.ConsumerKey ∧ (rest.map Key.ConsumerKey).Nodup := by
      simpa [List.nodup_cons] using hnd
    have hstep : Seed.entries now (k :: rest) v =
      Seed.entries now rest (GoMap.set v k.ConsumerKey ⟨default_bullets, now, k⟩) := rfl
    rw [hstep]
    rcases List.mem_cons.mp hc with heq | hrest
    · subst heq
      rw [Seed.entries_get_of_not_mem hnd'.1, GoMap.get_set_self]
    · exact ih hnd'.2 hrest

theorem Seed.entries_keys_mem {now : Int} {keys : KeyList} {v : GoMap Limits} {ck : String} :
    ck ∈ (Seed.entries now keys v).map Prod.fst ↔
      ck ∈ v.map Prod.fst ∨ ck ∈ keys.map Key.ConsumerKey := by
  induction keys generalizing v with
  | nil => simp [Seed.entries]
  | cons k rest ih =>
    have hstep : Seed.entries now (k :: rest) v =
      Seed.entries now rest (GoMap.set v k.ConsumerKey ⟨default_bullets, now, k⟩) := rfl
    rw [hstep, ih]
    have hset : ck ∈ (GoMap.set v k.ConsumerKey ⟨default_bullets, now, k⟩).map Prod.fst ↔
        ck = k.ConsumerKey ∨ ck ∈ v.map Prod.fst := by
      constructor
      · intro hm
        obtain ⟨e, he, hk⟩ := List.mem_map.mp hm
        rcases GoMap.mem_set.mp he with h1 | h1
        · left; rw [← hk, h1]
        · right; exact hk ▸ List.mem_map_of_mem Prod.fst h1.1
      · rintro (h1 | h1)
        · rw [h1]
          exact List.mem_map_of_mem Prod.fst (GoMap.mem_set.mpr (Or.inl rfl))
        · obtain ⟨e, he, hk⟩ := List.mem_map.mp h1
          by_cases hek : e.1 = k.ConsumerKey
          · rw [← hk, hek]
            exact List.mem_map_of_mem Prod.fst (GoMap.mem_set.mpr (Or.inl rfl))
          · exact hk ▸ List.mem_map_of_mem Prod.fst (GoMap.mem_set.mpr (Or.inr ⟨he, hek⟩))
    rw [hset]
    simp only [List.map_cons, List.mem_cons]
    tauto

theorem Seed.entries_length {now : Int} {keys : KeyList}
    (hnd : (keys.map Key.ConsumerKey).Nodup) :
    (Seed.entries now keys []).length = keys.length := by
  have hwf : ((Seed.entries now keys []).map Prod.fst).Nodup :=
    @Seed.entries_WF now keys [] List.nodup_nil
  have hperm : List.Perm ((Seed.entries now keys []).map Prod.fst)
      (keys.map Key.ConsumerKey) := by
    rw [List.perm_ext_iff_of_nodup hwf hnd]
    intro ck
    rw [Seed.entries_keys_mem]
    simp
  simpa using hperm.length_eq

theorem Seed.entries_ne_nil {now : Int} {keys : KeyList} {v : GoMap Limits}
    (h : keys ≠ [] ∨ v ≠ []) : Seed.entries now keys v ≠ [] := by
  induction keys generalizing v with
  | nil =>
    rcases h with h | h
    · exact absurd rfl h
    · exact h
  | cons k rest ih =>
    exact ih (Or.inr (by simp [GoMap.set]))

theorem GoMap.mem_keys_iff_get {V : Type} {m : GoMap V} {s : String} :
    s ∈ GoMap.keys m ↔ (GoMap.get m s).isSome = true := by
  unfold GoMap.keys
  cases hg : GoMap.get m s with
  | none =>
    simp only [Option.isSome_none, Bool.false_eq_true, iff_false]
    intro hm
    obtain ⟨e, he, hk⟩ := List.mem_map.mp hm
    exact GoMap.get_eq_none_iff.mp hg e he hk
  | some v =>
    simp only [Option.isSome_some, iff_true]
    exact List.mem_map_of_mem Prod.fst (GoMap.mem_of_get_eq_some hg)

theorem Seed.WF (keys : KeyList) (now : Int) : Pool.WF (Seed keys now) :=
  (Reachable.inv (@Reachable.seed keys now)).1

theorem Seed.mem {keys : KeyList} {now : Int} {e : String × GoMap Limits}
    (he : e ∈ Seed keys now) : e.1 ∈ services ∧ e.2 = Seed.entries now keys [] := by
  have hg : GoMap.get (Seed keys now) e.1 = some e.2 :=
    GoMap.get_eq_some_of_mem (Seed.WF keys now).1 he
  rw [Seed.get] at hg
  by_cases hs : e.1 ∈ services
  · rw [if_pos hs] at hg
    exact ⟨hs, (Option.some.inj hg).symm⟩
  · rw [if_neg hs] at hg
    simp at hg

theorem Seed.mem_of_service {keys : KeyList} {now : Int} {s : String} (hs : s ∈ services) :
    (s, Seed.entries now keys []) ∈ Seed keys now := by
  apply GoMap.mem_of_get_eq_some
  rw [Seed.get, if_pos hs]

namespace Pool

theorem Registered_update {keys_hash : GoMap Bool} {limits : Pool}
    (hk : Registered keys_hash limits) (service : String)
    {g : GoMap Limits → GoMap Limits}
    (hg : ∀ v : GoMap Limits, (∀ f ∈ v, Contains keys_hash f.2.Key = true) →
      ∀ f ∈ g v, Contains keys_hash f.2.Key = true) :
    Registered keys_hash (update limits service g) := by
  intro e he
  obtain ⟨e0, h0, _, h2⟩ := mem_update.mp he
  rw [h2]
  by_cases hs : e0.1 = service
  · simpa [hs] using hg _ (hk e0 h0)
  · simpa [hs] using hk e0 h0

theorem Registered_deleteIn {keys_hash : GoMap Bool} {limits : Pool}
    (hk : Registered keys_hash limits) (service ck : String) :
    Registered keys_hash (deleteIn limits service ck) :=
  Registered_update hk service (fun _ hv f hf => hv f (GoMap.mem_delete.mp hf).1)

theorem Registered_assignIn {keys_hash : GoMap Bool} {limits : Pool}
    (hk : Registered keys_hash limits) (service ck : String) {l : Limits}
    (hl : Contains keys_hash l.Key = true) :
    Registered keys_hash (assignIn limits service ck l) :=
  Registered_update hk service (fun _ hv f hf => by
    rcases GoMap.mem_set.mp hf with h | h
    · rw [h]; exact hl
    · exact hv f h.1)

theorem Registered_reorder {keys_hash : GoMap Bool} {p q : Pool}
    (hk : Registered keys_hash p) (h : Reorder p q) : Registered keys_hash q := by
  intro b hb f hf
  obtain ⟨a, ha, _, hperm⟩ := h.exists_mem hb
  exact hk a ha f (hperm.mem_iff.mpr hf)

theorem keys_perm_of_reorder {p q : Pool} (h : Reorder p q) :
    List.Perm (GoMap.keys p) (GoMap.keys q) := by
  obtain ⟨r, hpr, hrq⟩ := h
  unfold GoMap.keys
  rw [← keys_eq_of_forall₂ hrq]
  exact hpr.map Prod.fst

end Pool

/-- Every pool of a run has the configured services as its services and holds
keys of the registry only. -/
theorem Reachable.services_registered {keys : KeyList} {limits : Pool}
    (h : Reachable keys limits) :
    (∀ s, s ∈ GoMap.keys limits ↔ s ∈ services) ∧
      Pool.Registered (registry keys) limits := by
  induction h with
  | seed now =>
    refine ⟨?_, ?_⟩
    · intro s
      rw [GoMap.mem_keys_iff_get, Seed.get]
      by_cases hs : s ∈ services <;> simp [hs]
    · intro e he f hf
      rw [(Seed.mem he).2] at hf
      rcases Seed.entries_mem hf with h1 | ⟨k, hk, hfk⟩
      · simp at h1
      · rw [hfk]
        exact (Contains_registry_iff keys k).mpr ⟨k, hk, rfl⟩
  | getKey service now _ ih =>
    rcases GetKey.getKey_pool_cases _ service now with h | ⟨ck, h⟩
    · rw [h]; exact ih
    · rw [h]
      refine ⟨?_, Pool.Registered_deleteIn ih.2 _ _⟩
      intro s
      unfold GoMap.keys Pool.deleteIn
      rw [Pool.keys_update]
      exact ih.1 s
  | setKey service key remaining reset now resp _ hs ih =>
    rcases SetKey.setKey_pool_cases hs with h | ⟨l, hl, hc, h⟩
    · rw [h]; exact ih
    · rw [h]
      refine ⟨?_, Pool.Registered_assignIn ih.2 _ _ (by rw [hl]; exact hc)⟩
      intro s
      unfold GoMap.keys Pool.assignIn
      rw [Pool.keys_update]
      exact ih.1 s
  | reorder _ hre ih =>
    refine ⟨?_, Pool.Registered_reorder ih.2 hre⟩
    intro s
    rw [← (Pool.keys_perm_of_reorder hre).mem_iff]
    exact ih.1 s

theorem services_nodup : services.Nodup := by decide

/-- In a map keyed by consumer keys, no consumer key is held twice. -/
theorem GoMap.consumerKeys_nodup {v : GoMap Limits} (hwf : GoMap.WF v)
    (hk : ∀ f ∈ v, f.2.Key.ConsumerKey = f.1) :
    (v.map (fun f => f.2.Key.ConsumerKey)).Nodup := by
  have : v.map (fun f => f.2.Key.ConsumerKey) = v.map Prod.fst :=
    List.map_congr_left hk
  rw [this]
  exact hwf

/-! ## Lemmas on sequences of requests -/

theorem GetKey.of_some {limits : Pool} {service : String} {now : Int} {c : Key}
    (h : (GetKey limits service now).1 = some c) :
    ∃ v ck l, (service, v) ∈ limits ∧ (ck, l) ∈ v ∧ l.Key = c ∧
      (l.Remaining > 0 ∨ now > l.Reset) ∧
      (GetKey limits service now).2 = Pool.deleteIn limits service ck := by
  unfold GetKey at h ⊢
  rcases GetKey.loop_cases limits service now limits with ⟨h1, _⟩ | ⟨v, ck, l, h1, h2, h3⟩
  · rw [h1] at h
    simp at h
  · rw [h3] at h ⊢
    have hs := GetKey.scan_eq_some h2
    exact ⟨v, ck, l, h1, hs.1, Option.some.inj h, hs.2, rfl⟩

theorem GetKey.isSome_of_eligible {limits : Pool} {service : String} {now : Int}
    {v : GoMap Limits} {f : String × Limits} (hv : (service, v) ∈ limits) (hf : f ∈ v)
    (he : f.2.Remaining > 0 ∨ now > f.2.Reset) :
    (GetKey limits service now).1.isSome = true := by
  unfold GetKey
  rcases GetKey.loop_cases limits service now limits with ⟨_, h2⟩ | ⟨_, _, _, _, _, h3⟩
  · exact absurd he (GetKey.scan_eq_none_iff.mp (h2 v hv) f hf)
  · rw [h3]
    rfl

theorem GetKey.none_of_not_eligible {limits : Pool} {service : String} {now : Int}
    (h : ∀ v, (service, v) ∈ limits → ∀ f ∈ v, ¬ (f.2.Remaining > 0 ∨ now > f.2.Reset)) :
    GetKey limits service now = (none, limits) := by
  unfold GetKey
  rcases GetKey.loop_cases limits service now limits with ⟨h1, _⟩ | ⟨v, ck, l, h1, h2, _⟩
  · exact h1
  · have hs := GetKey.scan_eq_some h2
    exact absurd hs.2 (h v h1 (ck, l) hs.1)

namespace Pool

theorem exists_of_forall₂_left {R : String × GoMap Limits → String × GoMap Limits → Prop}
    {r q : Pool} (h : List.Forall₂ R r q) {a : String × GoMap Limits} (ha : a ∈ r) :
    ∃ b ∈ q, R a b := by
  induction h with
  | nil => simp at ha
  | cons hab _ ih =>
    rcases List.mem_cons.mp ha with heq | hrest
    · exact ⟨_, List.mem_cons_self _ _, heq ▸ hab⟩
    · obtain ⟨b, hb, hR⟩ := ih hrest
      exact ⟨b, List.mem_cons_of_mem _ hb, hR⟩

/-- An entry of a pool is an entry of the reordered pool, up to the order of
its inner map. -/
theorem Reorder.exists_mem_left {p q : Pool} (h : Reorder p q) {a : String × GoMap Limits}
    (ha : a ∈ p) : ∃ b ∈ q, a.1 = b.1 ∧ List.Perm a.2 b.2 := by
  obtain ⟨r, hpr, hrq⟩ := h
  exact exists_of_forall₂_left hrq (hpr.mem_iff.mp ha)

/-- Reordering does not change what `limits[service][ck]` reads. -/
theorem Reorder.entry_eq {p q : Pool} (hwf : WF p) (h : Reorder p q) (s ck : String) :
    entry q s ck = entry p s ck := by
  have hwfq : WF q := WF_reorder hwf h
  apply Option.ext
  intro l
  rw [Option.mem_def, Option.mem_def, entry_eq_some_iff hwfq, entry_eq_some_iff hwf]
  constructor
  · rintro ⟨v, hv, hl⟩
    obtain ⟨a, ha, hab, hperm⟩ := h.exists_mem hv
    exact ⟨a.2, by rw [← (show a.1 = s from hab)]; exact ha, hperm.mem_iff.mpr hl⟩
  · rintro ⟨v, hv, hl⟩
    obtain ⟨b, hb, hab, hperm⟩ := h.exists_mem_left hv
    exact ⟨b.2, by rw [show s = b.1 from hab]; exact hb, hperm.mem_iff.mp hl⟩

theorem Reorder_update {limits : Pool} (service : String) {f : GoMap Limits → GoMap Limits}
    (h : ∀ e ∈ limits, e.1 = service → List.Perm e.2 (f e.2)) :
    Reorder limits (update limits service f) := by
  refine ⟨limits, List.Perm.refl _, ?_⟩
  unfold update
  rw [List.forall₂_map_right_iff, List.forall₂_same]
  intro e he
  by_cases hs : e.1 = service
  · rw [if_pos hs]
    exact ⟨rfl, h e he hs⟩
  · rw [if_neg hs]
    exact ⟨rfl, List.Perm.refl _⟩

end Pool

theorem GoMap.delete_delete {V : Type} (m : GoMap V) (k : String) :
    GoMap.delete (GoMap.delete m k) k = GoMap.delete m k := by
  unfold GoMap.delete
  rw [List.filter_filter]
  simp

theorem GoMap.perm_cons_delete {V : Type} {m : GoMap V} (hwf : GoMap.WF m) {k : String}
    {x : V} (hm : (k, x) ∈ m) : List.Perm m ((k, x) :: GoMap.delete m k) := by
  induction m with
  | nil => simp at hm
  | cons e rest ih =>
    obtain ⟨k0, v0⟩ := e
    have hnd : k0 ∉ rest.map Prod.fst ∧ GoMap.WF rest := by
      simpa [GoMap.WF, List.nodup_cons] using hwf
    rw [GoMap.delete_cons]
    rcases List.mem_cons.mp hm with heq | hrest
    · cases heq
      rw [if_pos rfl, GoMap.delete_eq_self hnd.1]
    · have hne : k0 ≠ k := by
        intro hk
        apply hnd.1
        rw [hk]
        exact List.mem_map_of_mem Prod.fst hrest
      rw [if_neg hne]
      exact ((ih hnd.2 hrest).cons (k0, v0)).trans (List.Perm.swap _ _ _)

/-- Writing back the entry that was deleted gives the same map. -/
theorem GoMap.perm_set_delete {V : Type} {m : GoMap V} (hwf : GoMap.WF m) {k : String}
    {x : V} (hm : (k, x) ∈ m) : List.Perm m (GoMap.set (GoMap.delete m k) k x) := by
  unfold GoMap.set
  rw [GoMap.delete_delete]
  exact GoMap.perm_cons_delete hwf hm

theorem GetKey.of_none {limits : Pool} {service : String} {now : Int}
    (h : (GetKey limits service now).1 = none) : (GetKey limits service now).2 = limits := by
  unfold GetKey at h ⊢
  rcases GetKey.loop_cases limits service now limits with ⟨h1, _⟩ | ⟨_, _, _, _, _, h3⟩
  · rw [h1]
  · rw [h3] at h
    simp at h

/-- What a stretch that leaves an exhausted entry alone keeps: the pool stays a
pool of Go maps keyed by consumer keys, and the entry stays where it is. -/
theorem Undisturbed.keeps {keys_hash : GoMap Bool} {target ck : String} {t : Int}
    {p q : Pool} {l0 : Limits} (hu : Undisturbed keys_hash target ck t p q)
    (hp : Pool.WF p ∧ Pool.Keyed p) (he : Pool.entry p target ck = some l0)
    (hr : l0.Remaining ≤ 0) (ht : l0.Reset = t) :
    (Pool.WF q ∧ Pool.Keyed q) ∧ Pool.entry q target ck = some l0 := by
  induction hu with
  | refl => exact ⟨hp, he⟩
  | getKey service now _ hnow ih =>
    cases hc : (GetKey _ service now).1 with
    | none =>
      rw [GetKey.of_none hc]
      exact ih
    | some c =>
      obtain ⟨v, ck', l, hv, hl, _, helig, hpool⟩ := GetKey.of_some hc
      rw [hpool]
      refine ⟨⟨Pool.WF_deleteIn ih.1.1 _ _, Pool.Keyed_deleteIn ih.1.2 _ _⟩, ?_⟩
      by_cases hs : service = target
      · subst hs
        have hne : ck ≠ ck' := by
          intro hck
          subst hck
          have : Pool.entry _ service ck = some l :=
            (Pool.entry_eq_some_iff ih.1.1).mpr ⟨v, hv, hl⟩
          rw [ih.2] at this
          have hl0 : l0 = l := Option.some.inj this
          rw [← hl0] at helig
          have := hnow rfl
          rcases helig with h' | h' <;> omega
        unfold Pool.deleteIn
        rw [Pool.entry_update_self]
        have hg : GoMap.get _ service = some v := GoMap.get_eq_some_of_mem ih.1.1.1 hv
        rw [hg]
        have := ih.2
        unfold Pool.entry at this
        rw [hg] at this
        rw [← this]
        exact GoMap.get_delete_ne v hne
      · unfold Pool.deleteIn
        rw [Pool.entry_update_ne _ _ _ (fun h => hs h.symm)]
        exact ih.2
  | setKey service key remaining reset now resp _ hset hother ih =>
    by_cases hok : resp.status = 200
    · obtain ⟨_, _, ⟨v, hg⟩, hl⟩ := SetKey.of_ok hset hok
      rw [hl]
      refine ⟨⟨Pool.WF_assignIn ih.1.1 _ _ _,
        Pool.Keyed_assignIn ih.1.2 service ⟨_, _, key⟩⟩, ?_⟩
      by_cases hs : service = target
      · subst hs
        have hne : ck ≠ key.ConsumerKey := fun h => hother hok rfl h.symm
        unfold Pool.assignIn
        rw [Pool.entry_update_self, hg]
        have := ih.2
        unfold Pool.entry at this
        rw [hg] at this
        rw [← this]
        exact GoMap.get_set_ne v _ hne
      · unfold Pool.assignIn
        rw [Pool.entry_update_ne _ _ _ (fun h => hs h.symm)]
        exact ih.2
    · rw [SetKey.unchanged_of_not_ok hset hok]
      exact ih
  | reorder _ hre ih =>
    exact ⟨⟨Pool.WF_reorder ih.1.1 hre, Pool.Keyed_reorder ih.1.2 hre⟩,
      by rw [hre.entry_eq ih.1.1]; exact ih.2⟩

/-- What a stretch in which a key stays taken keeps: the pool stays a pool of
Go maps keyed by consumer keys, and the map key of the taken key stays free. -/
theorem Leased.keeps_free {keys_hash : GoMap Bool} {target ck : String} {p q : Pool}
    (hu : Leased keys_hash target ck p q) (hp : Pool.WF p ∧ Pool.Keyed p)
    (hfree : ∀ e ∈ p, e.1 = target → ∀ f ∈ e.2, f.1 ≠ ck) :
    (Pool.WF q ∧ Pool.Keyed q) ∧ ∀ e ∈ q, e.1 = target → ∀ f ∈ e.2, f.1 ≠ ck := by
  induction hu with
  | refl => exact ⟨hp, hfree⟩
  | getKey service now _ ih =>
    rcases GetKey.getKey_pool_cases _ service now with h | ⟨ck', h⟩
    · rw [h]; exact ih
    · rw [h]
      refine ⟨⟨Pool.WF_deleteIn ih.1.1 _ _, Pool.Keyed_deleteIn ih.1.2 _ _⟩, ?_⟩
      intro e he hes f hf
      obtain ⟨e0, h0, h1, h2⟩ := Pool.mem_update.mp he
      have hf0 : f ∈ e0.2 := by
        rw [h2] at hf
        by_cases hs : e0.1 = service
        · rw [if_pos hs] at hf
          exact (GoMap.mem_delete.mp hf).1
        · rw [if_neg hs] at hf
          exact hf
      exact ih.2 e0 h0 (h1.symm.trans hes) f hf0
  | setKey service key remaining reset now resp _ hset hother ih =>
    by_cases hok : resp.status = 200
    · obtain ⟨_, _, _, hl⟩ := SetKey.of_ok hset hok
      rw [hl]
      refine ⟨⟨Pool.WF_assignIn ih.1.1 _ _ _,
        Pool.Keyed_assignIn ih.1.2 service ⟨_, _, key⟩⟩, ?_⟩
      intro e he hes f hf
      obtain ⟨e0, h0, h1, h2⟩ := Pool.mem_update.mp he
      have hes0 : e0.1 = target := h1.symm.trans hes
      rw [h2] at hf
      by_cases hs : e0.1 = service
      · rw [if_pos hs] at hf
        rcases GoMap.mem_set.mp hf with hnew | hold
        · rw [hnew]
          exact hother hok (hs.symm.trans hes0)
        · exact ih.2 e0 h0 hes0 f hold.1
      · rw [if_neg hs] at hf
        exact ih.2 e0 h0 hes0 f hf
    · rw [SetKey.unchanged_of_not_ok hset hok]
      exact ih
  | reorder _ hre ih =>
    refine ⟨⟨Pool.WF_reorder ih.1.1 hre, Pool.Keyed_reorder ih.1.2 hre⟩, ?_⟩
    intro b hb hbs f hf
    obtain ⟨a, ha, hab, hperm⟩ := hre.exists_mem hb
    exact ih.2 a ha (hab.trans hbs) f (hperm.mem_iff.mpr hf)

/-! ## Acquire: GetKey -/

/-- C1: for every pool, service and clock reading, `GetKey` answers with a key
exactly when the map of the service holds an entry with `Remaining > 0` or
`now > Reset`, and a key it answers with is the key held by such an entry of
that service. -/
theorem getKey_ok_iff_eligible (limits : Pool) (hwf : Pool.WF limits) (service : String)
    (now : Int) :
    ((GetKey limits service now).1.isSome = true ↔
        ∃ ck l, Pool.entry limits service ck = some l ∧ (l.Remaining > 0 ∨ now > l.Reset)) ∧
      ∀ key, (GetKey limits service now).1 = some key →
        ∃ ck l, Pool.entry limits service ck = some l ∧ l.Key = key ∧
          (l.Remaining > 0 ∨ now > l.Reset) := by
  unfold GetKey
  rcases GetKey.loop_cases limits service now limits with ⟨h1, h2⟩ | ⟨v, ck, l, h1, h2, h3⟩
  · rw [h1]
    refine ⟨?_, ?_⟩
    · simp only [Option.isSome_none, Bool.false_eq_true, false_iff, not_exists, not_and]
      intro ck l hl
      obtain ⟨v, hv, hm⟩ := (Pool.entry_eq_some_iff hwf).mp hl
      exact GetKey.scan_eq_none_iff.mp (h2 v hv) (ck, l) hm
    · intro key hkey
      simp at hkey
  · rw [h3]
    have hs := GetKey.scan_eq_some h2
    have he : Pool.entry limits service ck = some l :=
      (Pool.entry_eq_some_iff hwf).mpr ⟨v, h1, hs.1⟩
    refine ⟨?_, ?_⟩
    · simp only [Option.isSome_some, true_iff]
      exact ⟨ck, l, he, hs.2⟩
    · intro key hkey
      simp only [Option.some.injEq] at hkey
      exact ⟨ck, l, he, hkey, hs.2⟩

/-- The sample pool at clock reading 5, where the second entry of the service is
usable. -/
theorem getKey_ok_iff_eligible_witness :
    Pool.WF samplePool ∧
      (((GetKey samplePool "search/tweets" 5).1.isSome = true ↔
          ∃ ck l, Pool.entry samplePool "search/tweets" ck = some l ∧
            (l.Remaining > 0 ∨ 5 > l.Reset)) ∧
        ∀ key, (GetKey samplePool "search/tweets" 5).1 = some key →
          ∃ ck l, Pool.entry samplePool "search/tweets" ck = some l ∧ l.Key = key ∧
            (l.Remaining > 0 ∨ 5 > l.Reset)) :=
  ⟨by decide, getKey_ok_iff_eligible samplePool (by decide) "search/tweets" 5⟩

/-- C3: when `GetKey` answers with a key, the entry holding that key is stored
under some map key `ck` of the service (the consumer key of the answered key
when the pool is keyed by consumer keys); afterwards that map key is free, the
service has exactly one entry fewer, every other map key of the service reads
as before, the maps of all other services are the same, and the set of
services is the same. -/
theorem getKey_removes_one_entry (limits : Pool) (hwf : Pool.WF limits) (service : String)
    (now : Int) (key : Key) (h : (GetKey limits service now).1 = some key) :
    ∃ ck l, Pool.entry limits service ck = some l ∧ l.Key = key ∧
      (Pool.Keyed limits → ck = key.ConsumerKey) ∧
      Pool.entry (GetKey limits service now).2 service ck = none ∧
      (∀ ck', ck' ≠ ck →
        Pool.entry (GetKey limits service now).2 service ck' = Pool.entry limits service ck') ∧
      (∀ s, s ≠ service →
        GoMap.get (GetKey limits service now).2 s = GoMap.get limits s) ∧
      GoMap.keys (GetKey limits service now).2 = GoMap.keys limits ∧
      (∃ v v', GoMap.get limits service = some v ∧
        GoMap.get (GetKey limits service now).2 service = some v' ∧
        v'.length + 1 = v.length) ∧
      Pool.WF (GetKey limits service now).2 := by
  unfold GetKey at h ⊢
  rcases GetKey.loop_cases limits service now limits with ⟨h1, _⟩ | ⟨v, ck, l, h1, h2, h3⟩
  · rw [h1] at h
    simp at h
  · rw [h3] at h ⊢
    simp only [Option.some.injEq] at h
    have hs := GetKey.scan_eq_some h2
    have hg : GoMap.get limits service = some v := GoMap.get_eq_some_of_mem hwf.1 h1
    have he : Pool.entry limits service ck = some l :=
      (Pool.entry_eq_some_iff hwf).mpr ⟨v, h1, hs.1⟩
    refine ⟨ck, l, he, h, ?_, ?_, ?_, ?_, ?_, ?_, ?_⟩
    · intro hkeyed
      rw [← h]
      exact (hkeyed _ h1 _ hs.1).symm
    · unfold Pool.deleteIn
      rw [Pool.entry_update_self, hg]
      exact GoMap.get_delete_self v ck
    · intro ck' hne
      unfold Pool.deleteIn
      rw [Pool.entry_update_self]
      unfold Pool.entry
      rw [hg]
      exact GoMap.get_delete_ne v hne
    · intro s hs'
      unfold Pool.deleteIn
      rw [Pool.get_update, if_neg hs']
    · exact Pool.keys_update limits service _
    · refine ⟨v, GoMap.delete v ck, hg, ?_, ?_⟩
      · unfold Pool.deleteIn
        rw [Pool.get_update, if_pos rfl, hg]
        rfl
      · exact GoMap.length_delete_of_mem (hwf.2 _ h1) hs.1
    · exact Pool.WF_update hwf service (fun v hv => GoMap.WF_delete hv ck)

/-- The sample pool at clock reading 5: the call answers with K2 and frees its
map key. -/
theorem getKey_removes_one_entry_witness :
    Pool.WF samplePool ∧ (GetKey samplePool "search/tweets" 5).1 = some K2 ∧
    ∃ ck l, Pool.entry samplePool "search/tweets" ck = some l ∧ l.Key = K2 ∧
      (Pool.Keyed samplePool → ck = K2.ConsumerKey) ∧
      Pool.entry (GetKey samplePool "search/tweets" 5).2 "search/tweets" ck = none ∧
      (∀ ck', ck' ≠ ck →
        Pool.entry (GetKey samplePool "search/tweets" 5).2 "search/tweets" ck' =
          Pool.entry samplePool "search/tweets" ck') ∧
      (∀ s, s ≠ "search/tweets" →
        GoMap.get (GetKey samplePool "search/tweets" 5).2 s = GoMap.get samplePool s) ∧
      GoMap.keys (GetKey samplePool "search/tweets" 5).2 = GoMap.keys samplePool ∧
      (∃ v v', GoMap.get samplePool "search/tweets" = some v ∧
        GoMap.get (GetKey samplePool "search/tweets" 5).2 "search/tweets" = some v' ∧
        v'.length + 1 = v.length) ∧
      Pool.WF (GetKey samplePool "search/tweets" 5).2 :=
  ⟨by decide, by decide,
    getKey_removes_one_entry samplePool (by decide) "search/tweets" 5 K2 (by decide)⟩

/-- C4: when the service is not in the pool, or every entry of the service has
`Remaining <= 0` and `now <= Reset`, `GetKey` answers 204 and leaves the pool
as it was. -/
theorem getKey_absent_pool_unchanged (limits : Pool) (hwf : Pool.WF limits)
    (service : String) (now : Int)
    (h : GoMap.get limits service = none ∨
      ∀ ck l, Pool.entry limits service ck = some l → l.Remaining ≤ 0 ∧ now ≤ l.Reset) :
    GetKey limits service now = (none, limits) := by
  have hall : ∀ ck l, Pool.entry limits service ck = some l →
      l.Remaining ≤ 0 ∧ now ≤ l.Reset := by
    rcases h with h | h
    · intro ck l hl
      simp [Pool.entry, h] at hl
    · exact h
  unfold GetKey
  rcases GetKey.loop_cases limits service now limits with ⟨h1, _⟩ | ⟨v, ck, l, h1, h2, _⟩
  · exact h1
  · have hs := GetKey.scan_eq_some h2
    have he : Pool.entry limits service ck = some l :=
      (Pool.entry_eq_some_iff hwf).mpr ⟨v, h1, hs.1⟩
    have hb := hall ck l he
    rcases hs.2 with h' | h' <;> omega

/-- The exhausted pool at clock reading 5: its only entry has nothing left and a
refresh time still ahead. -/
theorem getKey_absent_pool_unchanged_witness :
    Pool.WF exhaustedPool ∧
      (∀ ck l, Pool.entry exhaustedPool "search/tweets" ck = some l →
        l.Remaining ≤ 0 ∧ (5 : Int) ≤ l.Reset) ∧
      GetKey exhaustedPool "search/tweets" 5 = (none, exhaustedPool) :=
  have hall : ∀ ck l, Pool.entry exhaustedPool "search/tweets" ck = some l →
      l.Remaining ≤ 0 ∧ (5 : Int) ≤ l.Reset := by
    intro ck l h
    obtain ⟨v, hv, hl⟩ := (Pool.entry_eq_some_iff (by decide)).mp h
    simp only [exhaustedPool, List.mem_singleton, Prod.mk.injEq] at hv
    rw [hv.2] at hl
    simp only [List.mem_singleton, Prod.mk.injEq] at hl
    rw [hl.2]
    decide
  ⟨by decide, hall,
    getKey_absent_pool_unchanged exhaustedPool (by decide) "search/tweets" 5 (Or.inr hall)⟩

/-! ## Release: SetKey -/

/-- C2, at the failing input: the service "statuses/lookup" is in `services`
and the key K1 is in the registry, yet `SetKey` answers 400 from its service
loop and the pool keeps the seeded entry instead of (5, 1000, K1). -/
theorem setKey_rejects_configured_service :
    "statuses/lookup" ∈ services ∧ Contains (registry [K1]) K1 = true ∧
      SetKey (registry [K1]) (Seed [K1] 100) "statuses/lookup" K1 "5" "1000" 100 =
        some (badService, Seed [K1] 100) ∧
      Pool.entry (Seed [K1] 100) "statuses/lookup" K1.ConsumerKey = some ⟨1, 100, K1⟩ := by
  decide

/-- C5 as stated fails: for the service name "nope" and the key K2, which is
not in the registry of K1, `SetKey` answers from its service loop, not with
the answer of the key check. -/
theorem setKey_unknown_key_counterexample :
    Contains (registry [K1]) K2 = false ∧
      SetKey (registry [K1]) (Seed [K1] 100) "nope" K2 "5" "1000" 100 =
        some (badService, Seed [K1] 100) ∧
      badService ≠ badKey := by
  decide

/-- C5, amended: for every service name and every key whose hash is not in
the registry, `SetKey` answers 400 and leaves the pool as it was, whatever
`remaining` and `reset` are; the answer is that of the key check when the
request gets past the service loop, and that of the service loop when the
loop stops it, as it does for every name outside `services`. -/
theorem setKey_unknown_key_rejected (keys_hash : GoMap Bool) (limits : Pool)
    (service : String) (key : Key) (remaining reset : String) (now : Int)
    (h : Contains keys_hash key = false) :
    (∃ resp, SetKey keys_hash limits service key remaining reset now = some (resp, limits) ∧
        resp.status = 400) ∧
      (SetKey.passes service services = true →
        SetKey keys_hash limits service key remaining reset now = some (badKey, limits)) ∧
      (SetKey.passes service services = false →
        SetKey keys_hash limits service key remaining reset now =
          some (badService, limits)) ∧
      (service ∉ services → SetKey.passes service services = false) := by
  refine ⟨?_, ?_, ?_, ?_⟩
  · cases hp : SetKey.passes service services with
    | false => exact ⟨badService, SetKey.of_not_passes _ _ _ _ _ _ hp, rfl⟩
    | true => exact ⟨badKey, SetKey.of_not_contains _ _ _ _ hp h, rfl⟩
  · intro hp
    exact SetKey.of_not_contains _ _ _ _ hp h
  · intro hp
    exact SetKey.of_not_passes _ _ _ _ _ _ hp
  · exact SetKey.not_passes_of_not_mem

/-- The key K2 given back for the first service to a server that loaded K1 only. -/
theorem setKey_unknown_key_rejected_witness :
    Contains (registry [K1]) K2 = false ∧
    ((∃ resp, SetKey (registry [K1]) (Seed [K1] 100) "search/tweets" K2 "5" "1000" 100 =
          some (resp, Seed [K1] 100) ∧ resp.status = 400) ∧
      (SetKey.passes "search/tweets" services = true →
        SetKey (registry [K1]) (Seed [K1] 100) "search/tweets" K2 "5" "1000" 100 =
          some (badKey, Seed [K1] 100)) ∧
      (SetKey.passes "search/tweets" services = false →
        SetKey (registry [K1]) (Seed [K1] 100) "search/tweets" K2 "5" "1000" 100 =
          some (badService, Seed [K1] 100)) ∧
      ("search/tweets" ∉ services → SetKey.passes "search/tweets" services = false)) :=
  ⟨by decide,
    setKey_unknown_key_rejected (registry [K1]) (Seed [K1] 100) "search/tweets" K2 "5" "1000"
      100 (by decide)⟩

/-- C6: for every service name outside `services`, every key (registry members
included) and every `remaining` and `reset`, `SetKey` answers 400 from its
service loop and leaves the pool as it was. -/
theorem setKey_unknown_service_rejected (keys_hash : GoMap Bool) (limits : Pool)
    (service : String) (key : Key) (remaining reset : String) (now : Int)
    (h : service ∉ services) :
    SetKey keys_hash limits service key remaining reset now = some (badService, limits) ∧
      badService.status = 400 :=
  ⟨SetKey.of_not_passes _ _ _ _ _ _ (SetKey.not_passes_of_not_mem h), rfl⟩

/-- The loaded key K1 given back for a service name that is not in the list. -/
theorem setKey_unknown_service_rejected_witness :
    "nope" ∉ services ∧ Contains (registry [K1]) K1 = true ∧
      SetKey (registry [K1]) (Seed [K1] 100) "nope" K1 "5" "1000" 100 =
        some (badService, Seed [K1] 100) ∧
      badService.status = 400 :=
  ⟨by decide, by decide,
    setKey_unknown_service_rejected (registry [K1]) (Seed [K1] 100) "nope" K1 "5" "1000" 100
      (by decide)⟩

/-- C8: after a `SetKey` that answers 200, the entry stored under the consumer
key of the key holds that key; its `Remaining` is the value of the `remaining`
field when `ParseInt` accepts the field (a decimal integer in the range of
int64) and 1 otherwise, as for a missing field; its `Reset` is the value of
the `reset` field when `ParseInt` accepts it and the clock reading otherwise;
each default is taken whatever the other field is. -/
theorem setKey_stores_parsed_or_default (keys_hash : GoMap Bool) (limits limits' : Pool)
    (service : String) (key : Key) (remaining reset : String) (now : Int) (resp : Response)
    (h : SetKey keys_hash limits service key remaining reset now = some (resp, limits'))
    (hok : resp.status = 200) :
    ∃ l, Pool.entry limits' service key.ConsumerKey = some l ∧ l.Key = key ∧
      (∀ v, ParseInt remaining = some v →
        l.Remaining = v ∧ -(2 : Int) ^ 63 ≤ v ∧ v < (2 : Int) ^ 63) ∧
      (ParseInt remaining = none → l.Remaining = 1) ∧
      (remaining = "" → l.Remaining = 1) ∧
      (∀ v, ParseInt reset = some v → l.Reset = v ∧ -(2 : Int) ^ 63 ≤ v ∧ v < (2 : Int) ^ 63) ∧
      (ParseInt reset = none → l.Reset = now) ∧
      (reset = "" → l.Reset = now) := by
  obtain ⟨_, _, ⟨v, hg⟩, hl⟩ := SetKey.of_ok h hok
  refine ⟨_, by rw [hl]; exact Pool.entry_assignIn_self hg _ _, rfl, ?_, ?_, ?_, ?_, ?_, ?_⟩
  · intro v hv
    exact ⟨by simp only [hv], ParseInt_range hv⟩
  · intro hv
    simp only [hv]
  · intro hv
    have : ParseInt remaining = none := by rw [hv]; decide
    simp only [this]
  · intro v hv
    exact ⟨by simp only [hv], ParseInt_range hv⟩
  · intro hv
    simp only [hv]
  · intro hv
    have : ParseInt reset = none := by rw [hv]; decide
    simp only [this]

/-- The loaded key K1 given back with `remaining` 7 and no `reset`, at clock
reading 250. -/
theorem setKey_stores_parsed_or_default_witness :
    SetKey (registry [K1]) (Seed [K1] 100) "search/tweets" K1 "7" "" 250 =
        some (statusOK, Pool.assignIn (Seed [K1] 100) "search/tweets" "ck1" ⟨7, 250, K1⟩) ∧
      statusOK.status = 200 ∧
      ∃ l, Pool.entry (Pool.assignIn (Seed [K1] 100) "search/tweets" "ck1" ⟨7, 250, K1⟩)
          "search/tweets" K1.ConsumerKey = some l ∧ l.Key = K1 ∧
        (∀ v, ParseInt "7" = some v →
          l.Remaining = v ∧ -(2 : Int) ^ 63 ≤ v ∧ v < (2 : Int) ^ 63) ∧
        (ParseInt "7" = none → l.Remaining = 1) ∧
        ("7" = "" → l.Remaining = 1) ∧
        (∀ v, ParseInt "" = some v → l.Reset = v ∧ -(2 : Int) ^ 63 ≤ v ∧ v < (2 : Int) ^ 63) ∧
        (ParseInt "" = none → l.Reset = 250) ∧
        ("" = "" → l.Reset = 250) :=
  ⟨by decide, by decide,
    setKey_stores_parsed_or_default (registry [K1]) (Seed [K1] 100) _ "search/tweets" K1 "7" ""
      250 statusOK (by decide) (by decide)⟩

/-- C10 as stated fails: a `SetKey` at clock reading 250 with `remaining` 0 and
no `reset` field answers 200 and stores (0, 250, K1), an entry that `GetKey`
passes over at the same clock reading 250. -/
theorem setKey_no_reset_counterexample :
    SetKey (registry [K1]) (Seed [K1] 100) "search/tweets" K1 "0" "" 250 =
        some (statusOK, Pool.assignIn (Seed [K1] 100) "search/tweets" "ck1" ⟨0, 250, K1⟩) ∧
      Pool.entry (Pool.assignIn (Seed [K1] 100) "search/tweets" "ck1" ⟨0, 250, K1⟩)
        "search/tweets" "ck1" = some ⟨0, 250, K1⟩ ∧
      ¬ ((0 : Int) > 0 ∨ (250 : Int) > 250) ∧
      (GetKey (Pool.assignIn (Seed [K1] 100) "search/tweets" "ck1" ⟨0, 250, K1⟩)
        "search/tweets" 250).1 = none := by
  decide

/-- C10, amended: after a `SetKey` at clock reading `now` that answers 200 and
whose `reset` field is missing or not accepted by `ParseInt`, the stored entry
has `Reset = now`; it satisfies the rule of `GetKey` at every clock reading
later than `now`, whatever `remaining` was, and at `now` itself exactly when
its stored `Remaining` is above 0. -/
theorem setKey_no_reset_eligible_later (keys_hash : GoMap Bool) (limits limits' : Pool)
    (service : String) (key : Key) (remaining reset : String) (now : Int) (resp : Response)
    (h : SetKey keys_hash limits service key remaining reset now = some (resp, limits'))
    (hok : resp.status = 200) (hreset : ParseInt reset = none) :
    ∃ l, Pool.entry limits' service key.ConsumerKey = some l ∧ l.Key = key ∧ l.Reset = now ∧
      (∀ now', now < now' → (l.Remaining > 0 ∨ now' > l.Reset)) ∧
      ((l.Remaining > 0 ∨ now > l.Reset) ↔ l.Remaining > 0) := by
  obtain ⟨_, _, ⟨v, hg⟩, hl⟩ := SetKey.of_ok h hok
  refine ⟨_, by rw [hl]; exact Pool.entry_assignIn_self hg _ _, rfl, ?_, ?_, ?_⟩
  · simp only [hreset]
  · intro now' hlt
    right
    simp only [hreset]
    exact hlt
  · simp only [hreset]
    constructor
    · rintro (h1 | h1)
      · exact h1
      · omega
    · exact Or.inl

/-- The loaded key K1 given back with `remaining` 0 and no `reset`, at clock
reading 250. -/
theorem setKey_no_reset_eligible_later_witness :
    SetKey (registry [K1]) (Seed [K1] 100) "search/tweets" K1 "0" "" 250 =
        some (statusOK, Pool.assignIn (Seed [K1] 100) "search/tweets" "ck1" ⟨0, 250, K1⟩) ∧
      statusOK.status = 200 ∧ ParseInt "" = none ∧
      ∃ l, Pool.entry (Pool.assignIn (Seed [K1] 100) "search/tweets" "ck1" ⟨0, 250, K1⟩)
          "search/tweets" K1.ConsumerKey = some l ∧ l.Key = K1 ∧ l.Reset = 250 ∧
        (∀ now', 250 < now' → (l.Remaining > 0 ∨ now' > l.Reset)) ∧
        ((l.Remaining > 0 ∨ 250 > l.Reset) ↔ l.Remaining > 0) :=
  ⟨by decide, by decide, by decide,
    setKey_no_reset_eligible_later (registry [K1]) (Seed [K1] 100) _ "search/tweets" K1 "0" ""
      250 statusOK (by decide) (by decide) (by decide)⟩

/-! ## The registry -/

/-- C9 as stated fails: with the single key K3 loaded, the key K4 differs from
K3 in its first two fields and has the same hash, so the registry contains
it. -/
theorem contains_counterexample :
    Contains (registry [K3]) K4 = true ∧ K4 ∉ [K3] ∧ K3.Hash = K4.Hash := by
  decide

/-- C9, amended: every loaded key is contained in the registry; the registry
contains `c` exactly when the hash of `c` is the hash of a loaded key; and when
no field of the loaded keys and of `c` holds a colon, the registry contains
`c` exactly when `c` is equal, in all four fields, to a loaded key. -/
theorem contains_iff_loaded (keys : KeyList) (c : Key) :
    (c ∈ keys → Contains (registry keys) c = true) ∧
      (Contains (registry keys) c = true ↔ ∃ k ∈ keys, k.Hash = c.Hash) ∧
      ((∀ k ∈ keys, k.colonFree) → c.colonFree →
        (Contains (registry keys) c = true ↔ c ∈ keys)) := by
  refine ⟨?_, Contains_registry_iff keys c, ?_⟩
  · intro hc
    exact (Contains_registry_iff keys c).mpr ⟨c, hc, rfl⟩
  · intro hk hc
    rw [Contains_registry_iff]
    constructor
    · rintro ⟨k, hkm, hh⟩
      have hkc := hk k hkm
      have : k = c :=
        Key.Hash_inj ⟨hkc.1, hkc.2.1, hkc.2.2.1⟩ ⟨hc.1, hc.2.1, hc.2.2.1⟩ hh
      rw [← this]
      exact hkm
    · intro hm
      exact ⟨c, hm, rfl⟩

/-- Two loaded keys without colons, and the second of them looked up. -/
theorem contains_iff_loaded_witness :
    (∀ k ∈ [K1, K2], k.colonFree) ∧ K2.colonFree ∧ K2 ∈ [K1, K2] ∧
      Contains (registry [K1, K2]) K2 = true ∧
      ((K2 ∈ [K1, K2] → Contains (registry [K1, K2]) K2 = true) ∧
        (Contains (registry [K1, K2]) K2 = true ↔ ∃ k ∈ [K1, K2], k.Hash = K2.Hash) ∧
        ((∀ k ∈ [K1, K2], k.colonFree) → K2.colonFree →
          (Contains (registry [K1, K2]) K2 = true ↔ K2 ∈ [K1, K2]))) :=
  ⟨by decide, by decide, by decide, by decide, contains_iff_loaded [K1, K2] K2⟩

/-! ## Acquire twice -/

/-- C7: in every pool of a run, when `GetKey` for a service answers with the
key `c`, every later `GetKey` for that service that comes before a `SetKey`
gives `c` back, after any number of `GetKey` requests for any services in
between, at any clock readings (so at any later or equal ones) and whatever
order the maps are visited in, answers 204 or a key whose consumer key is not
that of `c`. -/
theorem getKey_again_other_key (keys : KeyList) (limits : Pool) (hr : Reachable keys limits)
    (service : String) (now now' : Int) (c : Key)
    (h : (GetKey limits service now).1 = some c) (limits' : Pool)
    (hstretch : Leased (registry keys) service c.ConsumerKey (GetKey limits service now).2
      limits') :
    (GetKey limits' service now').1 = none ∨
      ∃ c', (GetKey limits' service now').1 = some c' ∧ c'.ConsumerKey ≠ c.ConsumerKey := by
  have hinv := hr.inv
  have hinv1 :
      Pool.WF (GetKey limits service now).2 ∧ Pool.Keyed (GetKey limits service now).2 :=
    (Reachable.getKey service now hr).inv
  -- the first call frees the map key of `c`
  have hfree : ∀ e ∈ (GetKey limits service now).2, e.1 = service →
      ∀ f ∈ e.2, f.1 ≠ c.ConsumerKey := by
    obtain ⟨v, ck, l, hv, hl, hlc, _, hpool⟩ := GetKey.of_some h
    have hck : c.ConsumerKey = ck := by
      rw [← hlc]
      exact hinv.2 _ hv _ hl
    rw [hpool]
    intro e he hes f hf
    obtain ⟨e0, _, h1', h2'⟩ := Pool.mem_update.mp he
    have hes0 : e0.1 = service := h1'.symm.trans hes
    rw [h2', if_pos hes0] at hf
    rw [hck]
    exact (GoMap.mem_delete.mp hf).2
  have hkeep := hstretch.keeps_free hinv1 hfree
  cases hc : (GetKey limits' service now').1 with
  | none => exact Or.inl rfl
  | some c' =>
    right
    refine ⟨c', rfl, ?_⟩
    obtain ⟨v, ck, l, hv, hl, hlc, _, _⟩ := GetKey.of_some hc
    rw [← hlc, hkeep.1.2 _ hv _ hl]
    exact hkeep.2 _ hv rfl _ hl

/-- The pool seeded from K1 and K2: the first call for "search/tweets" answers
with K2; then come a call for "users/lookup", a `SetKey` that gives K1 back
for "search/tweets", and a call for "search/tweets" on the pool they left. -/
theorem getKey_again_other_key_witness :
    Reachable [K1, K2] (Seed [K1, K2] 100) ∧
      (GetKey (Seed [K1, K2] 100) "search/tweets" 100).1 = some K2 ∧
      SetKey (registry [K1, K2])
          (GetKey (GetKey (Seed [K1, K2] 100) "search/tweets" 100).2 "users/lookup" 120).2
          "search/tweets" K1 "4" "" 130 =
        some (statusOK, Pool.assignIn
          (GetKey (GetKey (Seed [K1, K2] 100) "search/tweets" 100).2 "users/lookup" 120).2
          "search/tweets" "ck1" ⟨4, 130, K1⟩) ∧
      (GetKey (Pool.assignIn
          (GetKey (GetKey (Seed [K1, K2] 100) "search/tweets" 100).2 "users/lookup" 120).2
          "search/tweets" "ck1" ⟨4, 130, K1⟩) "search/tweets" 140).1 = some K1 ∧
      ((GetKey (Pool.assignIn
            (GetKey (GetKey (Seed [K1, K2] 100) "search/tweets" 100).2 "users/lookup" 120).2
            "search/tweets" "ck1" ⟨4, 130, K1⟩) "search/tweets" 140).1 = none ∨
        ∃ c', (GetKey (Pool.assignIn
            (GetKey (GetKey (Seed [K1, K2] 100) "search/tweets" 100).2 "users/lookup" 120).2
            "search/tweets" "ck1" ⟨4, 130, K1⟩) "search/tweets" 140).1 = some c' ∧
          c'.ConsumerKey ≠ K2.ConsumerKey) :=
  ⟨Reachable.seed 100, by decide, by decide, by decide,
    getKey_again_other_key [K1, K2] (Seed [K1, K2] 100) (Reachable.seed 100) "search/tweets"
      100 140 K2 (by decide) _
      (Leased.setKey "search/tweets" K1 "4" "" 130 statusOK
        (Leased.getKey "users/lookup" 120 (Leased.refl _)) (by decide)
        (fun _ _ => by decide))⟩

/-! ## The seeded pool -/

/-- C13: for every loaded list whose consumer keys are pairwise distinct and
every seed time, the services of the seeded pool are exactly the configured
ones, and the map of each service holds, for every loaded key `c`, the entry
(1, now, c) under the consumer key of `c`, holds nothing else, and has as many
entries as there are loaded keys. -/
theorem seed_postcondition (keys : KeyList) (now : Int)
    (hnd : (keys.map Key.ConsumerKey).Nodup) :
    Pool.WF (Seed keys now) ∧
      List.Perm (GoMap.keys (Seed keys now)) services ∧
      (∀ s ∈ services, ∀ c ∈ keys,
        Pool.entry (Seed keys now) s c.ConsumerKey = some ⟨1, now, c⟩) ∧
      (∀ s ck l, Pool.entry (Seed keys now) s ck = some l →
        s ∈ services ∧ ∃ c ∈ keys, ck = c.ConsumerKey ∧ l = ⟨1, now, c⟩) ∧
      (∀ s ∈ services, ∃ v, GoMap.get (Seed keys now) s = some v ∧
        v.length = keys.length) := by
  have hwf := Seed.WF keys now
  refine ⟨hwf, ?_, ?_, ?_, ?_⟩
  · have hk : (GoMap.keys (Seed keys now)).Nodup := hwf.1
    exact (List.perm_ext_iff_of_nodup hk services_nodup).mpr
      (Reachable.services_registered (@Reachable.seed keys now)).1
  · intro s hs c hc
    unfold Pool.entry
    rw [Seed.get, if_pos hs]
    exact Seed.entries_get_of_mem hnd hc
  · intro s ck l hl
    obtain ⟨v, hv, hm⟩ := (Pool.entry_eq_some_iff hwf).mp hl
    have hv' := Seed.mem hv
    refine ⟨hv'.1, ?_⟩
    have hv2 : v = Seed.entries now keys [] := hv'.2
    rw [hv2] at hm
    rcases Seed.entries_mem hm with h1 | ⟨k, hk, hfk⟩
    · simp at h1
    · simp only [Prod.mk.injEq] at hfk
      exact ⟨k, hk, hfk.1, hfk.2⟩
  · intro s hs
    exact ⟨_, by rw [Seed.get, if_pos hs], Seed.entries_length hnd⟩

/-- The list of K1 and K2, seeded at 100. -/
theorem seed_postcondition_witness :
    ([K1, K2].map Key.ConsumerKey).Nodup ∧
      (Pool.WF (Seed [K1, K2] 100) ∧
        List.Perm (GoMap.keys (Seed [K1, K2] 100)) services ∧
        (∀ s ∈ services, ∀ c ∈ [K1, K2],
          Pool.entry (Seed [K1, K2] 100) s c.ConsumerKey = some ⟨1, 100, c⟩) ∧
        (∀ s ck l, Pool.entry (Seed [K1, K2] 100) s ck = some l →
          s ∈ services ∧ ∃ c ∈ [K1, K2], ck = c.ConsumerKey ∧ l = ⟨1, 100, c⟩) ∧
        (∀ s ∈ services, ∃ v, GoMap.get (Seed [K1, K2] 100) s = some v ∧
          v.length = [K1, K2].length)) :=
  ⟨by decide, seed_postcondition [K1, K2] 100 (by decide)⟩

/-- C14: for every non-empty loaded list and every configured service, the
first `GetKey` on the seeded pool, in whatever order the maps are visited and
at any clock reading (so at any reading from the seed time on), answers with
one of the loaded keys. -/
theorem getKey_after_seed (keys : KeyList) (seedTime now : Int) (service : String)
    (limits : Pool) (hne : keys ≠ []) (hs : service ∈ services)
    (hre : Pool.Reorder (Seed keys seedTime) limits) :
    ∃ c ∈ keys, (GetKey limits service now).1 = some c := by
  have hmem : ∀ b ∈ limits, b.1 ∈ services ∧ b.2 ≠ [] ∧
      ∀ f ∈ b.2, f.2.Remaining = 1 ∧ f.2.Key ∈ keys := by
    intro b hb
    obtain ⟨a, ha, hab, hperm⟩ := hre.exists_mem hb
    have ha' := Seed.mem ha
    refine ⟨hab ▸ ha'.1, ?_, ?_⟩
    · intro hnil
      rw [hnil, ha'.2] at hperm
      exact Seed.entries_ne_nil (Or.inl hne) hperm.eq_nil
    · intro f hf
      have hf' : f ∈ Seed.entries seedTime keys [] := ha'.2 ▸ hperm.mem_iff.mpr hf
      rcases Seed.entries_mem hf' with h1 | ⟨k, hk, hfk⟩
      · simp at h1
      · rw [hfk]
        exact ⟨rfl, hk⟩
  have hin : ∃ v, (service, v) ∈ limits := by
    have h0 : (service, Seed.entries seedTime keys []) ∈ Seed keys seedTime :=
      Seed.mem_of_service hs
    obtain ⟨r, hpr, hrq⟩ := hre
    have h1 := hpr.mem_iff.mp h0
    have h2 : service ∈ r.map Prod.fst := List.mem_map_of_mem Prod.fst h1
    rw [Pool.keys_eq_of_forall₂ hrq] at h2
    obtain ⟨b, hb, hbs⟩ := List.mem_map.mp h2
    exact ⟨b.2, by rw [← hbs]; exact hb⟩
  unfold GetKey
  rcases GetKey.loop_cases limits service now limits with ⟨_, h2⟩ | ⟨v, ck, l, h1, h2, h3⟩
  · exfalso
    obtain ⟨v, hv⟩ := hin
    have hv' := hmem _ hv
    obtain ⟨f, hf⟩ := List.exists_mem_of_ne_nil _ hv'.2.1
    have hnot := GetKey.scan_eq_none_iff.mp (h2 v hv) f hf
    have := (hv'.2.2 f hf).1
    apply hnot
    left
    omega
  · rw [h3]
    exact ⟨l.Key, ((hmem _ h1).2.2 _ (GetKey.scan_eq_some h2).1).2, rfl⟩

/-- The list of K1 and K2 seeded at 100 and asked at 100, in the order the
start-up loop left. -/
theorem getKey_after_seed_witness :
    [K1, K2] ≠ [] ∧ "users/lookup" ∈ services ∧
      ∃ c ∈ [K1, K2], (GetKey (Seed [K1, K2] 100) "users/lookup" 100).1 = some c :=
  ⟨by decide, by decide,
    getKey_after_seed [K1, K2] 100 100 "users/lookup" (Seed [K1, K2] 100) (by decide)
      (by decide) (Pool.Reorder.refl _)⟩

/-! ## The hash -/

/-- C16: for two keys none of whose four fields holds a colon, the hashes are
equal exactly when the keys are equal in all four fields. -/
theorem hash_eq_iff_fields_eq (a b : Key) (ha : a.colonFree) (hb : b.colonFree) :
    a.Hash = b.Hash ↔
      (a.ConsumerKey = b.ConsumerKey ∧ a.ConsumerSecret = b.ConsumerSecret ∧
        a.AccessToken = b.AccessToken ∧ a.AccessTokenSecret = b.AccessTokenSecret) := by
  constructor
  · intro h
    have hab : a = b := Key.Hash_inj ⟨ha.1, ha.2.1, ha.2.2.1⟩ ⟨hb.1, hb.2.1, hb.2.2.1⟩ h
    rw [hab]
    exact ⟨rfl, rfl, rfl, rfl⟩
  · rintro ⟨h1, h2, h3, h4⟩
    unfold Key.Hash
    rw [h1, h2, h3, h4]

/-- The sample keys K1 and K2: no colons, different fields, different hashes. -/
theorem hash_eq_iff_fields_eq_witness :
    K1.colonFree ∧ K2.colonFree ∧
      (K1.Hash = K2.Hash ↔
        (K1.ConsumerKey = K2.ConsumerKey ∧ K1.ConsumerSecret = K2.ConsumerSecret ∧
          K1.AccessToken = K2.AccessToken ∧ K1.AccessTokenSecret = K2.AccessTokenSecret)) :=
  ⟨by decide, by decide, hash_eq_iff_fields_eq K1 K2 (by decide) (by decide)⟩

/-! ## The invariant of the pool -/

/-- C18: in every pool of a run (seeding, then any `GetKey` and `SetKey`
requests, answered 200 or not) the services are exactly the configured ones,
every entry is stored under the consumer key of the key it holds, so that no
consumer key is held twice within a service, and every key held has its hash
in the registry. -/
theorem reachable_pool_invariant (keys : KeyList) (limits : Pool)
    (h : Reachable keys limits) :
    Pool.WF limits ∧
      List.Perm (GoMap.keys limits) services ∧
      Pool.Keyed limits ∧
      (∀ e ∈ limits, (e.2.map (fun f => f.2.Key.ConsumerKey)).Nodup) ∧
      Pool.Registered (registry keys) limits ∧
      (∀ s ck l, Pool.entry limits s ck = some l →
        s ∈ services ∧ l.Key.ConsumerKey = ck ∧ Contains (registry keys) l.Key = true) := by
  have h1 := h.inv
  have h2 := h.services_registered
  refine ⟨h1.1, ?_, h1.2, ?_, h2.2, ?_⟩
  · have hk : (GoMap.keys limits).Nodup := h1.1.1
    exact (List.perm_ext_iff_of_nodup hk services_nodup).mpr h2.1
  · intro e he
    exact GoMap.consumerKeys_nodup (h1.1.2 e he) (h1.2 e he)
  · intro s ck l hl
    obtain ⟨v, hv, hm⟩ := (Pool.entry_eq_some_iff h1.1).mp hl
    have hk : s ∈ GoMap.keys limits := List.mem_map_of_mem Prod.fst hv
    have hkeyed : l.Key.ConsumerKey = ck := h1.2 (s, v) hv (ck, l) hm
    have hreg : Contains (registry keys) l.Key = true := h2.2 (s, v) hv (ck, l) hm
    exact ⟨(h2.1 s).mp hk, hkeyed, hreg⟩

/-- The pool seeded from K1 after one `GetKey`. -/
theorem reachable_pool_invariant_witness :
    Reachable [K1] (GetKey (Seed [K1] 100) "search/tweets" 100).2 ∧
      (Pool.WF (GetKey (Seed [K1] 100) "search/tweets" 100).2 ∧
        List.Perm (GoMap.keys (GetKey (Seed [K1] 100) "search/tweets" 100).2) services ∧
        Pool.Keyed (GetKey (Seed [K1] 100) "search/tweets" 100).2 ∧
        (∀ e ∈ (GetKey (Seed [K1] 100) "search/tweets" 100).2,
          (e.2.map (fun f => f.2.Key.ConsumerKey)).Nodup) ∧
        Pool.Registered (registry [K1]) (GetKey (Seed [K1] 100) "search/tweets" 100).2 ∧
        (∀ s ck l, Pool.entry (GetKey (Seed [K1] 100) "search/tweets" 100).2 s ck = some l →
          s ∈ services ∧ l.Key.ConsumerKey = ck ∧
            Contains (registry [K1]) l.Key = true)) :=
  ⟨Reachable.getKey "search/tweets" 100 (Reachable.seed 100),
    reachable_pool_invariant [K1] _ (Reachable.getKey "search/tweets" 100 (Reachable.seed 100))⟩

/-! ## Release, then acquire -/

/-- C11: after a `SetKey` answered 200 that stores, for the key `key` on a
service, a `remaining` that is 0 or less and the refresh time `t`, and for as
long as no further `SetKey` for that consumer key on that service is answered
200, a `GetKey` for the service at a clock reading `now <= t` never answers
with `key` (nor with any key of that consumer key) and leaves the entry in the
pool; when that entry is the only one of the service, it answers 204. -/
theorem setKey_exhausted_not_acquired (keys : KeyList) (limits limits1 limits2 : Pool)
    (hr : Reachable keys limits) (service : String) (key : Key) (remaining reset : String)
    (now0 r t : Int) (resp : Response)
    (h : SetKey (registry keys) limits service key remaining reset now0 =
      some (resp, limits1))
    (hok : resp.status = 200) (hrem : ParseInt remaining = some r) (hr0 : r ≤ 0)
    (hreset : ParseInt reset = some t)
    (hu : Undisturbed (registry keys) service key.ConsumerKey t limits1 limits2)
    (now : Int) (hnow : now ≤ t) :
    (GetKey limits2 service now).1 ≠ some key ∧
      (∀ c, (GetKey limits2 service now).1 = some c → c.ConsumerKey ≠ key.ConsumerKey) ∧
      Pool.entry (GetKey limits2 service now).2 service key.ConsumerKey = some ⟨r, t, key⟩ ∧
      ((∀ ck l, Pool.entry limits2 service ck = some l → ck = key.ConsumerKey) →
        GetKey limits2 service now = (none, limits2)) := by
  obtain ⟨_, _, ⟨v, hg⟩, hl⟩ := SetKey.of_ok h hok
  simp only [hrem, hreset] at hl
  have hinv1 : Pool.WF limits1 ∧ Pool.Keyed limits1 :=
    (Reachable.setKey service key remaining reset now0 resp hr h).inv
  have he1 : Pool.entry limits1 service key.ConsumerKey = some ⟨r, t, key⟩ := by
    rw [hl]
    exact Pool.entry_assignIn_self hg _ _
  have hkeep := hu.keeps hinv1 he1 hr0 rfl
  have hkeep' := (Undisturbed.getKey service now hu (fun _ => hnow)).keeps hinv1 he1 hr0 rfl
  have hother : ∀ c, (GetKey limits2 service now).1 = some c →
      c.ConsumerKey ≠ key.ConsumerKey := by
    intro c hc hck
    obtain ⟨v', ck', l, hv', hl', hlc, helig, _⟩ := GetKey.of_some hc
    have hck' : ck' = key.ConsumerKey := by
      rw [← hck, ← hlc]
      exact (hkeep.1.2 _ hv' _ hl').symm
    have : Pool.entry limits2 service ck' = some l :=
      (Pool.entry_eq_some_iff hkeep.1.1).mpr ⟨v', hv', hl'⟩
    rw [hck', hkeep.2] at this
    have hl0 : (⟨r, t, key⟩ : Limits) = l := Option.some.inj this
    rw [← hl0] at helig
    rcases helig with h' | h'
    · exact absurd h' (by simpa using hr0)
    · exact absurd h' (by simpa using hnow)
  refine ⟨fun hc => hother key hc rfl, hother, hkeep'.2, ?_⟩
  intro honly
  apply GetKey.none_of_not_eligible
  intro v' hv' f hf helig
  have hent : Pool.entry limits2 service f.1 = some f.2 :=
    (Pool.entry_eq_some_iff hkeep.1.1).mpr ⟨v', hv', hf⟩
  have hck := honly _ _ hent
  rw [hck, hkeep.2] at hent
  have hl0 : (⟨r, t, key⟩ : Limits) = f.2 := Option.some.inj hent
  rw [← hl0] at helig
  rcases helig with h' | h'
  · exact absurd h' (by simpa using hr0)
  · exact absurd h' (by simpa using hnow)

/-- The key K1 given back at 100 with `remaining` 0 and `reset` 3700, that is
100 + 3600, and asked for again at 100. -/
theorem setKey_exhausted_not_acquired_witness :
    Reachable [K1] (Seed [K1] 100) ∧
      SetKey (registry [K1]) (Seed [K1] 100) "search/tweets" K1 "0" "3700" 100 =
        some (statusOK,
          Pool.assignIn (Seed [K1] 100) "search/tweets" "ck1" ⟨0, 3700, K1⟩) ∧
      ParseInt "0" = some 0 ∧ ParseInt "3700" = some 3700 ∧
      ((GetKey (Pool.assignIn (Seed [K1] 100) "search/tweets" "ck1" ⟨0, 3700, K1⟩)
          "search/tweets" 100).1 ≠ some K1 ∧
        (∀ c, (GetKey (Pool.assignIn (Seed [K1] 100) "search/tweets" "ck1" ⟨0, 3700, K1⟩)
          "search/tweets" 100).1 = some c → c.ConsumerKey ≠ K1.ConsumerKey) ∧
        Pool.entry (GetKey (Pool.assignIn (Seed [K1] 100) "search/tweets" "ck1"
          ⟨0, 3700, K1⟩) "search/tweets" 100).2 "search/tweets" K1.ConsumerKey =
            some ⟨0, 3700, K1⟩ ∧
        ((∀ ck l, Pool.entry (Pool.assignIn (Seed [K1] 100) "search/tweets" "ck1"
            ⟨0, 3700, K1⟩) "search/tweets" ck = some l → ck = K1.ConsumerKey) →
          GetKey (Pool.assignIn (Seed [K1] 100) "search/tweets" "ck1" ⟨0, 3700, K1⟩)
            "search/tweets" 100 =
              (none, Pool.assignIn (Seed [K1] 100) "search/tweets" "ck1" ⟨0, 3700, K1⟩))) :=
  ⟨Reachable.seed 100, by decide, by decide, by decide,
    setKey_exhausted_not_acquired [K1] (Seed [K1] 100) _ _ (Reachable.seed 100)
      "search/tweets" K1 "0" "3700" 100 0 3700 statusOK (by decide) (by decide) (by decide)
      (by decide) (by decide) (Undisturbed.refl _) 100 (by decide)⟩

/-- C12: after a `SetKey` at clock reading `now` answered 200 that stores a
refresh time `t < now`, whatever `remaining` is, the stored entry satisfies
the rule of `GetKey` at every clock reading from `now` on; the next `GetKey`
for the service, in whatever order the maps are visited, answers with a key,
and with the key given back when its entry is the only one of the service. -/
theorem setKey_past_reset_acquired (keys : KeyList) (limits limits1 : Pool)
    (hr : Reachable keys limits) (service : String) (key : Key) (remaining reset : String)
    (now t : Int) (resp : Response)
    (h : SetKey (registry keys) limits service key remaining reset now =
      some (resp, limits1))
    (hok : resp.status = 200) (hreset : ParseInt reset = some t) (hlt : t < now) :
    (∃ l, Pool.entry limits1 service key.ConsumerKey = some l ∧ l.Key = key ∧ l.Reset = t ∧
        ∀ now', now ≤ now' → (l.Remaining > 0 ∨ now' > l.Reset)) ∧
      ∀ limits2 now', Pool.Reorder limits1 limits2 → now ≤ now' →
        (GetKey limits2 service now').1.isSome = true ∧
        ((∀ ck l, Pool.entry limits2 service ck = some l → ck = key.ConsumerKey) →
          (GetKey limits2 service now').1 = some key) := by
  obtain ⟨_, _, ⟨v, hg⟩, hl⟩ := SetKey.of_ok h hok
  simp only [hreset] at hl
  obtain ⟨r, hl⟩ : ∃ r : Int,
      limits1 = Pool.assignIn limits service key.ConsumerKey ⟨r, t, key⟩ := ⟨_, hl⟩
  have hinv1 : Pool.WF limits1 ∧ Pool.Keyed limits1 :=
    (Reachable.setKey service key remaining reset now resp hr h).inv
  have he1 : Pool.entry limits1 service key.ConsumerKey = some ⟨r, t, key⟩ := by
    rw [hl]
    exact Pool.entry_assignIn_self hg _ _
  refine ⟨⟨_, he1, rfl, rfl, fun now' hn => Or.inr (by simp only; omega)⟩, ?_⟩
  intro limits2 now' hre hn
  have hwf2 : Pool.WF limits2 := Pool.WF_reorder hinv1.1 hre
  have he2 : Pool.entry limits2 service key.ConsumerKey = some ⟨r, t, key⟩ := by
    rw [hre.entry_eq hinv1.1]
    exact he1
  obtain ⟨v2, hv2, hm2⟩ := (Pool.entry_eq_some_iff hwf2).mp he2
  have hsome : (GetKey limits2 service now').1.isSome = true :=
    GetKey.isSome_of_eligible hv2 hm2 (Or.inr (by simp only; omega))
  refine ⟨hsome, ?_⟩
  intro honly
  obtain ⟨c, hc⟩ := Option.isSome_iff_exists.mp hsome
  obtain ⟨v', ck', l, hv', hl', hlc, _, _⟩ := GetKey.of_some hc
  have hent : Pool.entry limits2 service ck' = some l :=
    (Pool.entry_eq_some_iff hwf2).mpr ⟨v', hv', hl'⟩
  rw [honly _ _ hent, he2] at hent
  rw [hc, ← hlc, ← Option.some.inj hent]

/-- The key K1 taken from the pool seeded from K1 and given back at 100 with
`remaining` 0 and `reset` 99, that is 100 - 1. -/
theorem setKey_past_reset_acquired_witness :
    Reachable [K1] (GetKey (Seed [K1] 50) "search/tweets" 50).2 ∧
      SetKey (registry [K1]) (GetKey (Seed [K1] 50) "search/tweets" 50).2 "search/tweets" K1
        "0" "99" 100 =
        some (statusOK, Pool.assignIn (GetKey (Seed [K1] 50) "search/tweets" 50).2
          "search/tweets" "ck1" ⟨0, 99, K1⟩) ∧
      ParseInt "99" = some 99 ∧
      ((∃ l, Pool.entry (Pool.assignIn (GetKey (Seed [K1] 50) "search/tweets" 50).2
            "search/tweets" "ck1" ⟨0, 99, K1⟩) "search/tweets" K1.ConsumerKey = some l ∧
          l.Key = K1 ∧ l.Reset = 99 ∧
          ∀ now', (100 : Int) ≤ now' → (l.Remaining > 0 ∨ now' > l.Reset)) ∧
        ∀ limits2 now', Pool.Reorder (Pool.assignIn (GetKey (Seed [K1] 50) "search/tweets"
            50).2 "search/tweets" "ck1" ⟨0, 99, K1⟩) limits2 → (100 : Int) ≤ now' →
          (GetKey limits2 "search/tweets" now').1.isSome = true ∧
          ((∀ ck l, Pool.entry limits2 "search/tweets" ck = some l → ck = K1.ConsumerKey) →
            (GetKey limits2 "search/tweets" now').1 = some K1)) :=
  ⟨Reachable.getKey "search/tweets" 50 (Reachable.seed 50), by decide, by decide,
    setKey_past_reset_acquired [K1] _ _ (Reachable.getKey "search/tweets" 50
      (Reachable.seed 50)) "search/tweets" K1 "0" "99" 100 99 statusOK (by decide) (by decide)
      (by decide) (by decide)⟩

/-! ## What SetKey accepts -/

/-- C19: on every pool of a run, `SetKey` answers 200, with the new entry
assigned in the pool, exactly when the service is the first element of
`services`, "search/tweets", and the hash of the key is in the registry; for
every other service name, in `services` or not, it answers 400 from the
service loop and the pool is as before, and so it is when the key check
answers 400. -/
theorem setKey_accepts_iff (keys : KeyList) (limits : Pool) (hr : Reachable keys limits)
    (service : String) (key : Key) (remaining reset : String) (now : Int) :
    services.head? = some "search/tweets" ∧
      ((∃ resp limits', SetKey (registry keys) limits service key remaining reset now =
            some (resp, limits') ∧ resp.status = 200) ↔
          (service = "search/tweets" ∧ Contains (registry keys) key = true)) ∧
      (service = "search/tweets" → Contains (registry keys) key = true →
        ∃ l, l.Key = key ∧
          SetKey (registry keys) limits service key remaining reset now =
            some (statusOK, Pool.assignIn limits service key.ConsumerKey l) ∧
          Pool.entry (Pool.assignIn limits service key.ConsumerKey l) service
            key.ConsumerKey = some l) ∧
      (service ≠ "search/tweets" →
        SetKey (registry keys) limits service key remaining reset now =
          some (badService, limits)) ∧
      (service = "search/tweets" → Contains (registry keys) key = false →
        SetKey (registry keys) limits service key remaining reset now =
          some (badKey, limits)) := by
  have haccept : service = "search/tweets" → Contains (registry keys) key = true →
      ∃ l, l.Key = key ∧
        SetKey (registry keys) limits service key remaining reset now =
          some (statusOK, Pool.assignIn limits service key.ConsumerKey l) ∧
        Pool.entry (Pool.assignIn limits service key.ConsumerKey l) service
          key.ConsumerKey = some l := by
    intro hs hc
    have hp : SetKey.passes service services = true := (SetKey.passes_services service).mpr hs
    have hmem : service ∈ GoMap.keys limits := by
      rw [hr.services_registered.1, hs]
      decide
    obtain ⟨v, hg⟩ := Option.isSome_iff_exists.mp (GoMap.mem_keys_iff_get.mp hmem)
    refine ⟨⟨(match ParseInt remaining with
      | some v => v
      | none => 1), (match ParseInt reset with
      | some v => v
      | none => now), key⟩, rfl, ?_, Pool.entry_assignIn_self hg _ _⟩
    simp [SetKey, hp, hc, hg]
  refine ⟨rfl, ⟨?_, ?_⟩, haccept, ?_, ?_⟩
  · rintro ⟨resp, limits', h, hok⟩
    obtain ⟨hp, hc, _, _⟩ := SetKey.of_ok h hok
    exact ⟨(SetKey.passes_services service).mp hp, hc⟩
  · rintro ⟨hs, hc⟩
    obtain ⟨l, _, h, _⟩ := haccept hs hc
    exact ⟨statusOK, _, h, rfl⟩
  · intro hs
    apply SetKey.of_not_passes
    cases hp : SetKey.passes service services with
    | false => rfl
    | true => exact absurd ((SetKey.passes_services service).mp hp) hs
  · intro hs hc
    exact SetKey.of_not_contains _ _ _ _ ((SetKey.passes_services service).mpr hs) hc

/-- The pool seeded from K1, and K1 given back for the third configured
service. -/
theorem setKey_accepts_iff_witness :
    Reachable [K1] (Seed [K1] 100) ∧
      (services.head? = some "search/tweets" ∧
        ((∃ resp limits', SetKey (registry [K1]) (Seed [K1] 100) "statuses/lookup" K1 "5"
              "1000" 100 = some (resp, limits') ∧ resp.status = 200) ↔
            ("statuses/lookup" = "search/tweets" ∧ Contains (registry [K1]) K1 = true)) ∧
        ("statuses/lookup" = "search/tweets" → Contains (registry [K1]) K1 = true →
          ∃ l, l.Key = K1 ∧
            SetKey (registry [K1]) (Seed [K1] 100) "statuses/lookup" K1 "5" "1000" 100 =
              some (statusOK,
                Pool.assignIn (Seed [K1] 100) "statuses/lookup" K1.ConsumerKey l) ∧
            Pool.entry (Pool.assignIn (Seed [K1] 100) "statuses/lookup" K1.ConsumerKey l)
              "statuses/lookup" K1.ConsumerKey = some l) ∧
        ("statuses/lookup" ≠ "search/tweets" →
          SetKey (registry [K1]) (Seed [K1] 100) "statuses/lookup" K1 "5" "1000" 100 =
            some (badService, Seed [K1] 100)) ∧
        ("statuses/lookup" = "search/tweets" → Contains (registry [K1]) K1 = false →
          SetKey (registry [K1]) (Seed [K1] 100) "statuses/lookup" K1 "5" "1000" 100 =
            some (badKey, Seed [K1] 100))) :=
  ⟨Reachable.seed 100,
    setKey_accepts_iff [K1] (Seed [K1] 100) (Reachable.seed 100) "statuses/lookup" K1 "5"
      "1000" 100⟩

/-! ## Acquire, then release -/

/-- C20: in every pool of a run, when `GetKey` for a service takes out the
entry (r, t, c) and answers with `c`, a `SetKey` for that service with the key
`c`, `remaining` r and `reset` t that is answered 200 gives back the pool as
it was before the `GetKey`: the same Go maps, reading the same at every
service and consumer key. -/
theorem getKey_setKey_round_trip (keys : KeyList) (limits limits' : Pool)
    (hr : Reachable keys limits) (service : String) (now now' : Int) (c : Key) (r t : Int)
    (hget : (GetKey limits service now).1 = some c)
    (hentry : Pool.entry limits service c.ConsumerKey = some ⟨r, t, c⟩)
    (remaining reset : String) (resp : Response)
    (hset : SetKey (registry keys) (GetKey limits service now).2 service c remaining reset
      now' = some (resp, limits'))
    (hok : resp.status = 200) (hrem : ParseInt remaining = some r)
    (hreset : ParseInt reset = some t) :
    Pool.Reorder limits limits' ∧
      (∀ s, Option.isSome (GoMap.get limits' s) = Option.isSome (GoMap.get limits s)) ∧
      ∀ s ck, Pool.entry limits' s ck = Pool.entry limits s ck := by
  have hinv := hr.inv
  obtain ⟨v, ck, l, hv, hl, hlc, _, hpool⟩ := GetKey.of_some hget
  have hck : ck = c.ConsumerKey := by
    rw [← hlc]
    exact (hinv.2 _ hv _ hl).symm
  subst hck
  have hl0 : l = ⟨r, t, c⟩ := by
    have := (Pool.entry_eq_some_iff hinv.1).mpr ⟨v, hv, hl⟩
    rw [hentry] at this
    exact (Option.some.inj this).symm
  obtain ⟨_, _, _, hl'⟩ := SetKey.of_ok hset hok
  simp only [hrem, hreset] at hl'
  rw [hpool] at hl'
  unfold Pool.assignIn Pool.deleteIn at hl'
  rw [Pool.update_update] at hl'
  have hre : Pool.Reorder limits limits' := by
    rw [hl']
    apply Pool.Reorder_update
    intro e he hes
    have hev : e.2 = v := by
      have h1 : GoMap.get limits service = some e.2 :=
        GoMap.get_eq_some_of_mem hinv.1.1 (by rw [← hes]; exact he)
      have h2 : GoMap.get limits service = some v := GoMap.get_eq_some_of_mem hinv.1.1 hv
      rw [h1] at h2
      exact Option.some.inj h2
    rw [hev]
    have hmem : (c.ConsumerKey, (⟨r, t, c⟩ : Limits)) ∈ v := by
      rw [← hl0]
      exact hl
    exact GoMap.perm_set_delete (hinv.1.2 _ hv) hmem
  refine ⟨hre, ?_, fun s ck => hre.entry_eq hinv.1 s ck⟩
  intro s
  have h1 : s ∈ GoMap.keys limits' ↔ s ∈ GoMap.keys limits :=
    (Pool.keys_perm_of_reorder hre).mem_iff.symm
  rw [GoMap.mem_keys_iff_get, GoMap.mem_keys_iff_get] at h1
  exact Bool.eq_iff_iff.mpr h1

/-- The pool seeded from K1 at 100: K1 is taken out and given back with the
values of its entry, 1 and 100. -/
theorem getKey_setKey_round_trip_witness :
    Reachable [K1] (Seed [K1] 100) ∧
      (GetKey (Seed [K1] 100) "search/tweets" 150).1 = some K1 ∧
      Pool.entry (Seed [K1] 100) "search/tweets" K1.ConsumerKey = some ⟨1, 100, K1⟩ ∧
      SetKey (registry [K1]) (GetKey (Seed [K1] 100) "search/tweets" 150).2 "search/tweets"
        K1 "1" "100" 200 =
        some (statusOK, Pool.assignIn (GetKey (Seed [K1] 100) "search/tweets" 150).2
          "search/tweets" "ck1" ⟨1, 100, K1⟩) ∧
      ParseInt "1" = some 1 ∧ ParseInt "100" = some 100 ∧
      (Pool.Reorder (Seed [K1] 100) (Pool.assignIn (GetKey (Seed [K1] 100) "search/tweets"
          150).2 "search/tweets" "ck1" ⟨1, 100, K1⟩) ∧
        (∀ s, Option.isSome (GoMap.get (Pool.assignIn (GetKey (Seed [K1] 100)
            "search/tweets" 150).2 "search/tweets" "ck1" ⟨1, 100, K1⟩) s) =
          Option.isSome (GoMap.get (Seed [K1] 100) s)) ∧
        ∀ s ck, Pool.entry (Pool.assignIn (GetKey (Seed [K1] 100) "search/tweets" 150).2
            "search/tweets" "ck1" ⟨1, 100, K1⟩) s ck = Pool.entry (Seed [K1] 100) s ck) :=
  ⟨Reachable.seed 100, by decide, by decide, by decide, by decide, by decide,
    getKey_setKey_round_trip [K1] (Seed [K1] 100) _ (Reachable.seed 100) "search/tweets" 150
      200 K1 1 100 (by decide) (by decide) "1" "100" statusOK (by decide) (by decide)
      (by decide) (by decide)⟩

/-! ## The lease cycle -/

/-- C15, at the failing input: with K1 the only loaded key, the pool seeded at
100 and the clock kept at 100, the cycle for the configured service
"statuses/lookup" goes: `GetKey` answers K1, `GetKey` answers 204, `SetKey`
with `remaining` 5 and `reset` 1000 answers 400 from the service loop, and the
third `GetKey` answers 204 again.  For "search/tweets" the same cycle ends as
the scenario says: `SetKey` answers 200 and the third `GetKey` answers K1. -/
theorem lease_cycle_other_service_fails :
    "statuses/lookup" ∈ services ∧
      (GetKey (Seed [K1] 100) "statuses/lookup" 100).1 = some K1 ∧
      (GetKey (GetKey (Seed [K1] 100) "statuses/lookup" 100).2 "statuses/lookup" 100).1 =
        none ∧
      SetKey (registry [K1])
          (GetKey (GetKey (Seed [K1] 100) "statuses/lookup" 100).2 "statuses/lookup" 100).2
          "statuses/lookup" K1 "5" "1000" 100 =
        some (badService,
          (GetKey (GetKey (Seed [K1] 100) "statuses/lookup" 100).2 "statuses/lookup" 100).2) ∧
      (GetKey (GetKey (GetKey (Seed [K1] 100) "statuses/lookup" 100).2 "statuses/lookup"
        100).2 "statuses/lookup" 100).1 = none ∧
      (GetKey (Seed [K1] 100) "search/tweets" 100).1 = some K1 ∧
      (GetKey (GetKey (Seed [K1] 100) "search/tweets" 100).2 "search/tweets" 100).1 = none ∧
      SetKey (registry [K1])
          (GetKey (GetKey (Seed [K1] 100) "search/tweets" 100).2 "search/tweets" 100).2
          "search/tweets" K1 "5" "1000" 100 =
        some (statusOK, Pool.assignIn
          (GetKey (GetKey (Seed [K1] 100) "search/tweets" 100).2 "search/tweets" 100).2
          "search/tweets" "ck1" ⟨5, 1000, K1⟩) ∧
      (GetKey (Pool.assignIn
          (GetKey (GetKey (Seed [K1] 100) "search/tweets" 100).2 "search/tweets" 100).2
          "search/tweets" "ck1" ⟨5, 1000, K1⟩) "search/tweets" 100).1 = some K1 :=
  ⟨by decide, by decide, by decide, by decide, by decide, by decide, by decide, by decide,
    by decide⟩

end KeysManager
